import Mathlib

/-!
# Finite-difference time-domain update of `inv_lens/FDTD.cpp`

A shallow embedding of the grid-update engine: the coefficient loop, the two
magnetic passes, the boundary patch, the electric pass, the source injection
and the sampling block, followed by theorems about them.

Conventions of the embedding.

* A `std::vector<double>` is a map `Nat → α` from linear indices to scalars; an
  in-place assignment `v[k] = e` is `Function.update v k e`.  The vectors of the
  program hold `storage = 200 * 200` elements.
* The scalar type `α` is any division ring (exact arithmetic): `ℚ` for
  evaluation, `ℝ` together with `Real.exp` for the source term.  The
  exponential is a parameter `exp : α → α` of the definitions that use it.
  In a division ring `1 / 0 = 0`, while the program's `1.0 / 0.0` is infinite
  and its products with `0` are NaN: statements about field values of a run
  therefore assume `eps ≠ 0` wherever the value passes through `1 / eps`.
* `int` loop counters and the parameters `space` and `final_time` are natural
  numbers; for a non-positive `int` every loop of the program is empty, exactly
  as for `0` here.
* The output stream is the list of lines written to it.
* A call with by-value parameters is a function of the caller's variables that
  runs the body on copies (`Caller`, `Callee`, `callFDTD`).
* The indices of the loads and stores of the program are listed, statement by
  statement and in program order, by `FDTDIdx`; they are computed on `Int`, as
  the `int` operands of the indexing macros are.
-/

namespace InvLens

/-! ## Data model -/

/-- Number of elements of every vector of the program: the file-scope constant
`space` (line 18) squared. -/
def storage : Nat := 200 * 200

/-- The six coefficient vectors, `struct Loss` (lines 20-27). -/
structure Loss (α : Type) where
  EzH : Nat → α
  EzE : Nat → α
  HyE : Nat → α
  HyH : Nat → α
  HxE : Nat → α
  HxH : Nat → α

/-- The three field vectors, `struct Field` (lines 29-33). -/
structure Field (α : Type) where
  Hx : Nat → α
  Hy : Nat → α
  Ez : Nat → α

/-- A line of the output stream: a record `t \t dx \t dy \t value \n`, or one of
the bare `\n` written after a frame. -/
inductive Line (α : Type) where
  | record (t dx dy : Nat) (value : α) : Line α
  | blank : Line α
deriving DecidableEq

/-- The working state of the time loop: the local copy of the field and what has
been written to the output so far. -/
structure Run (α : Type) where
  EM : Field α
  output : List (Line α)

/-- The linear index `(i) + (j) * space` of the indexing macros (lines 35-43);
`space` is the parameter of `FDTD` that is in scope where the macros expand. -/
def idx (space i j : Nat) : Nat := i + j * space

/-- The counter values of `for (int i = lo; i < hi; i++)`. -/
def loopRange (lo hi : Nat) : List Nat := List.range' lo (hi - lo)

/-- The counter values of `for (int d = start; d < space; d = d + 5)`. -/
def strideLoop (space start : Nat) : List Nat :=
  if start < space then start :: strideLoop space (start + 5) else []
termination_by space - start

/-- The nested loop `for dx in xs { for dy in ys { body } }` acting on a state. -/
def forCells {σ : Type} (xs ys : List Nat) (body : Nat → Nat → σ → σ) (s : σ) : σ :=
  xs.foldl (fun s dx => ys.foldl (fun s dy => body dx dy s) s) s

variable {α : Type}

/-- Default member initialisers of `Field`: every element is `0`. -/
def Field.zero [Zero α] : Field α := ⟨fun _ => 0, fun _ => 0, fun _ => 0⟩

/-- Default member initialisers of `Loss`: every element is `0`. -/
def Loss.zero [Zero α] : Loss α :=
  ⟨fun _ => 0, fun _ => 0, fun _ => 0, fun _ => 0, fun _ => 0, fun _ => 0⟩

/-! ## Coefficient loop (lines 85-107) -/

/-- Body of the coefficient loop at cell `(dx, dy)` (lines 90-105). -/
def coeffCell [DivisionRing α] (loss eps : α) (space dx dy : Nat) (lass : Loss α) : Loss α :=
  if 100 < dx ∧ dx < 150 then
    { EzH := Function.update lass.EzH (idx space dx dy) (eps / 9 / (1 - loss))
      EzE := Function.update lass.EzE (idx space dx dy) ((1 - loss) / (1 + loss))
      HyH := Function.update lass.HyH (idx space dx dy) ((1 - loss) / (1 + loss))
      HyE := Function.update lass.HyE (idx space dx dy) ((1 / eps) / (1 + loss))
      HxE := Function.update lass.HxE (idx space dx dy) ((1 / eps) / (1 + loss))
      HxH := Function.update lass.HxH (idx space dx dy) ((1 - loss) / (1 + loss)) }
  else
    { EzH := Function.update lass.EzH (idx space dx dy) eps
      EzE := Function.update lass.EzE (idx space dx dy) 1
      HyH := Function.update lass.HyH (idx space dx dy) 1
      HyE := Function.update lass.HyE (idx space dx dy) (1 / eps)
      HxE := Function.update lass.HxE (idx space dx dy) (1 / eps)
      HxH := Function.update lass.HxH (idx space dx dy) 1 }

/-- The coefficient loop (lines 88-107) for a given value of the local `loss`. -/
def relPermittivity [DivisionRing α] (loss eps : α) (space : Nat) (lass : Loss α) : Loss α :=
  forCells (loopRange 0 space) (loopRange 0 space) (coeffCell loss eps space) lass

/-- The divisors of the divisions evaluated by the body of the coefficient loop
at column `dx`, in evaluation order (lines 91-96 and 99-104). -/
def coeffDivisors [DivisionRing α] (loss eps : α) (dx : Nat) : List α :=
  if 100 < dx ∧ dx < 150 then
    [9, 1 - loss, 1 + loss, 1 + loss, eps, 1 + loss, eps, 1 + loss, 1 + loss]
  else
    [eps, eps]

/-! ## One time step (lines 110-180) -/

/-- Body of the `Hy` loop (lines 118-120). -/
def hyCell [DivisionRing α] (space : Nat) (lass : Loss α) (dx dy : Nat) (EM : Field α) :
    Field α :=
  { EM with
    Hy := Function.update EM.Hy (idx space dx dy)
      (lass.HyH (idx space dx dy) * EM.Hy (idx space dx dy)
        + lass.HyE (idx space dx dy)
          * (EM.Ez (idx space (dx + 1) dy) - EM.Ez (idx space dx dy))) }

/-- The in-place `Hy` pass (lines 116-122). -/
def hyPass [DivisionRing α] (space : Nat) (lass : Loss α) (EM : Field α) : Field α :=
  forCells (loopRange 0 (space - 1)) (loopRange 0 space) (hyCell space lass) EM

/-- Body of the `Hx` loop (lines 127-129). -/
def hxCell [DivisionRing α] (space : Nat) (lass : Loss α) (dx dy : Nat) (EM : Field α) :
    Field α :=
  { EM with
    Hx := Function.update EM.Hx (idx space dx dy)
      (lass.HxH (idx space dx dy) * EM.Hx (idx space dx dy)
        + lass.HxE (idx space dx dy)
          * (EM.Ez (idx space dx (dy + 1)) - EM.Ez (idx space dx dy))) }

/-- The in-place `Hx` pass (lines 125-131). -/
def hxPass [DivisionRing α] (space : Nat) (lass : Loss α) (EM : Field α) : Field α :=
  forCells (loopRange 0 space) (loopRange 0 (space - 1)) (hxCell space lass) EM

/-- The boundary patch `EM.Ez[0] = EM.Ez[1]` (line 140). -/
def patch (EM : Field α) : Field α :=
  { EM with Ez := Function.update EM.Ez 0 (EM.Ez 1) }

/-- Body of the `Ez` loop (lines 146-150); the coefficient is `lass.EzH[dx]`. -/
def ezCell [DivisionRing α] (space : Nat) (lass : Loss α) (dx dy : Nat) (EM : Field α) :
    Field α :=
  { EM with
    Ez := Function.update EM.Ez (idx space dx dy)
      (lass.EzE (idx space dx dy) * EM.Ez (idx space dx dy)
        + lass.EzH dx
          * (EM.Hy (idx space dx dy) - EM.Hy (idx space (dx - 1) dy)
              - EM.Hx (idx space dx dy) - EM.Hx (idx space dx (dy - 1)))) }

/-- The in-place `Ez` pass (lines 144-152). -/
def ezPass [DivisionRing α] (space : Nat) (lass : Loss α) (EM : Field α) : Field α :=
  forCells (loopRange 1 (space - 1)) (loopRange 1 (space - 1)) (ezCell space lass) EM

/-- The value added to `Ez[50]` in step `t`:
`exp(-((t + 1 - 40.) * (t + 1 - 40.))/100.0)` (line 155). -/
def sourceTerm [DivisionRing α] (exp : α → α) (t : Nat) : α :=
  exp (-((((t + 1 : Nat) : α) - 40) * (((t + 1 : Nat) : α) - 40)) / 100)

/-- The source injection `EM.Ez[50] += ...` (line 155). -/
def inject [DivisionRing α] (exp : α → α) (t : Nat) (EM : Field α) : Field α :=
  { EM with Ez := Function.update EM.Ez 50 (EM.Ez 50 + sourceTerm exp t) }

/-- Body of the sampling loop (lines 170-171): append one record. -/
def sampleCell (space t : Nat) (EM : Field α) (dx dy : Nat) (out : List (Line α)) :
    List (Line α) :=
  out ++ [Line.record t dx dy (EM.Hx (idx space dx dy))]

/-- The sampling block (lines 168-177): the records of one frame, then two
bare newlines. -/
def sample (space t : Nat) (EM : Field α) (out : List (Line α)) : List (Line α) :=
  forCells (strideLoop space 0) (strideLoop space 0) (sampleCell space t EM) out
    ++ [Line.blank, Line.blank]

/-- The field at the end of the body of the time loop, from the field at its
start (lines 115-155). -/
def stepField [DivisionRing α] (exp : α → α) (space : Nat) (lass : Loss α) (t : Nat)
    (EM : Field α) : Field α :=
  inject exp t (ezPass space lass (patch (hxPass space lass (hyPass space lass EM))))

/-- One iteration of the time loop (lines 110-180). -/
def timeStep [DivisionRing α] (exp : α → α) (space : Nat) (lass : Loss α) (t : Nat)
    (s : Run α) : Run α :=
  { EM := stepField exp space lass t s.EM
    output :=
      if t % 50 = 0 then sample space t (stepField exp space lass t s.EM) s.output
      else s.output }

/-- The time loop `for (int t = 0; t < final_time; t++)` (line 110). -/
def timeLoop [DivisionRing α] (exp : α → α) (final_time space : Nat) (lass : Loss α)
    (s : Run α) : Run α :=
  (loopRange 0 final_time).foldl (fun s t => timeStep exp space lass t s) s

/-- The subroutine `FDTD` (lines 76-181): the coefficient loop with `loss = 0.0`,
then the time loop; the result is the final working field and the output. -/
def FDTD [DivisionRing α] (exp : α → α) (EM : Field α) (final_time : Nat) (eps : α)
    (space : Nat) (lass : Loss α) (output : List (Line α)) : Run α :=
  timeLoop exp final_time space (relPermittivity 0 eps space lass) ⟨EM, output⟩

/-! ## The variant with a two-dimensional `EzH` index -/

/-- Body of the `Ez` loop with `lass.EzH[dx]` replaced by `lass.EzH(dx, dy)`;
everything else is as in `ezCell`. -/
def ezCell2D [DivisionRing α] (space : Nat) (lass : Loss α) (dx dy : Nat) (EM : Field α) :
    Field α :=
  { EM with
    Ez := Function.update EM.Ez (idx space dx dy)
      (lass.EzE (idx space dx dy) * EM.Ez (idx space dx dy)
        + lass.EzH (idx space dx dy)
          * (EM.Hy (idx space dx dy) - EM.Hy (idx space (dx - 1) dy)
              - EM.Hx (idx space dx dy) - EM.Hx (idx space dx (dy - 1)))) }

/-- The `Ez` pass of the variant. -/
def ezPass2D [DivisionRing α] (space : Nat) (lass : Loss α) (EM : Field α) : Field α :=
  forCells (loopRange 1 (space - 1)) (loopRange 1 (space - 1)) (ezCell2D space lass) EM

/-- The field after one step of the variant. -/
def stepField2D [DivisionRing α] (exp : α → α) (space : Nat) (lass : Loss α) (t : Nat)
    (EM : Field α) : Field α :=
  inject exp t (ezPass2D space lass (patch (hxPass space lass (hyPass space lass EM))))

/-- One iteration of the time loop of the variant. -/
def timeStep2D [DivisionRing α] (exp : α → α) (space : Nat) (lass : Loss α) (t : Nat)
    (s : Run α) : Run α :=
  { EM := stepField2D exp space lass t s.EM
    output :=
      if t % 50 = 0 then sample space t (stepField2D exp space lass t s.EM) s.output
      else s.output }

/-- The time loop of the variant. -/
def timeLoop2D [DivisionRing α] (exp : α → α) (final_time space : Nat) (lass : Loss α)
    (s : Run α) : Run α :=
  (loopRange 0 final_time).foldl (fun s t => timeStep2D exp space lass t s) s

/-- The subroutine `FDTD` with `lass.EzH[dx]` replaced by `lass.EzH(dx, dy)`. -/
def FDTD2D [DivisionRing α] (exp : α → α) (EM : Field α) (final_time : Nat) (eps : α)
    (space : Nat) (lass : Loss α) (output : List (Line α)) : Run α :=
  timeLoop2D exp final_time space (relPermittivity 0 eps space lass) ⟨EM, output⟩

/-! ## Reading the output -/

/-- The records of one frame in the order of the sampling loop (lines 168-175):
`dx` outer, `dy` inner, the value read from `EM.Hx(dx, dy)`. -/
def frame (space t : Nat) (EM : Field α) : List (Line α) :=
  (strideLoop space 0 ×ˢ strideLoop space 0).map fun c =>
    Line.record t c.1 c.2 (EM.Hx (idx space c.1 c.2))

/-- The `(t, dx, dy)` columns of a line, when it is a record. -/
def Line.key : Line α → Option (Nat × Nat × Nat)
  | Line.record t dx dy _ => some (t, dx, dy)
  | Line.blank => none

/-- The `(t, dx, dy)` columns of the records of an output, in order. -/
def recordKeys (out : List (Line α)) : List (Nat × Nat × Nat) :=
  out.filterMap Line.key

/-- The `(t, dx, dy)` columns of the records of the frame of step `t`. -/
def frameKeys (space t : Nat) : List (Nat × Nat × Nat) :=
  (strideLoop space 0 ×ˢ strideLoop space 0).map fun c => (t, c.1, c.2)

/-- Lexicographic order on `(t, x, y)`: `t` first, then `x`, then `y`. -/
def keyLt (a b : Nat × Nat × Nat) : Prop :=
  a.1 < b.1 ∨ (a.1 = b.1 ∧ (a.2.1 < b.2.1 ∨ (a.2.1 = b.2.1 ∧ a.2.2 < b.2.2)))

/-- The steps of a run of `final_time` steps at which the sampling block runs. -/
def sampledSteps (final_time : Nat) : List Nat :=
  (loopRange 0 final_time).filter fun t => t % 50 = 0

/-! ## Sample data for concrete instances -/

/-- A coefficient grid over the rationals with six different constants
(`EzH = 2`, `EzE = 3`, `HyE = 5`, `HyH = 7`, `HxE = 11`, `HxH = 13`). -/
def demoLoss : Loss ℚ :=
  ⟨fun _ => 2, fun _ => 3, fun _ => 5, fun _ => 7, fun _ => 11, fun _ => 13⟩

/-- A field over the rationals: `Hx[n] = n`, `Hy[n] = 2 n + 1`, `Ez[n] = n * n`. -/
def demoField : Field ℚ :=
  ⟨fun n => n, fun n => 2 * n + 1, fun n => n * n⟩

/-! ## Invariants of the run from the all-zero field -/

/-- Distance of the cell `(x, y)` from the source cell `(50, 0)`: `|x - 50| + y`. -/
def dist50 (x y : Nat) : Nat := (x - 50) + (50 - x) + y

/-- The border invariant: `Ez` is `0` at every border cell of the grid other than
`(50, 0)`, `Hy` is `0` in the last column and `Hx` is `0` in the last row. -/
def Border [Zero α] (space : Nat) (F : Field α) : Prop :=
  (∀ x y, x < space → y < space → (x = 0 ∨ x + 1 = space ∨ y = 0 ∨ y + 1 = space) →
      ¬ (x = 50 ∧ y = 0) → F.Ez (idx space x y) = 0)
    ∧ (∀ x y, x + 1 = space → y < space → F.Hy (idx space x y) = 0)
    ∧ (∀ x y, x < space → y + 1 = space → F.Hx (idx space x y) = 0)

/-- The front after `n` completed iterations: `Ez` is `0` at distance `>= n` from
the source cell, `Hx` at distance `>= n - 1`, and `Hy(x, y)` when both `(x, y)` and
`(x + 1, y)` are at distance `>= n - 1`. -/
def Front [Zero α] (space n : Nat) (F : Field α) : Prop :=
  (∀ x y, x < space → y < space → n ≤ dist50 x y → F.Ez (idx space x y) = 0)
    ∧ (∀ x y, x < space → y < space → n ≤ dist50 x y + 1 → F.Hx (idx space x y) = 0)
    ∧ (∀ x y, x < space → y < space → n ≤ dist50 x y + 1 → n ≤ dist50 (x + 1) y + 1 →
        F.Hy (idx space x y) = 0)

/-! ## The call from `main` (lines 53-69) -/

/-- The variables of a caller that the call
`FDTD(EM, final_time, eps, space, lass, output)` names: the two aggregates and the
contents of the stream. -/
structure Caller (α : Type) where
  lass : Loss α
  EM : Field α
  output : List (Line α)

/-- The objects the body of `FDTD` works on: its parameters `EM` and `lass`, which
the signature (lines 76-78) declares by value, and the stream, which it declares
by reference. -/
structure Callee (α : Type) where
  EM : Field α
  lass : Loss α
  output : List (Line α)

/-- The body of `FDTD` run to its end on the objects of the callee. -/
def FDTDBody [DivisionRing α] (exp : α → α) (final_time : Nat) (eps : α) (space : Nat)
    (p : Callee α) : Callee α :=
  { EM := (FDTD exp p.EM final_time eps space p.lass p.output).EM
    lass := relPermittivity 0 eps space p.lass
    output := (FDTD exp p.EM final_time eps space p.lass p.output).output }

/-- The call seen from the caller: the parameters `EM` and `lass` are
copy-initialised from the arguments, the body runs on them, and at the return
they are destroyed; the stream is the caller's, so what was written stays. -/
def callFDTD [DivisionRing α] (exp : α → α) (final_time : Nat) (eps : α) (space : Nat)
    (c : Caller α) : Caller α :=
  { c with output := (FDTDBody exp final_time eps space ⟨c.EM, c.lass, c.output⟩).output }

/-- The function `main` (lines 53-69): `space = 200`, `final_time = 100`,
`eps = 377.0`, default-initialised `lass` and `EM`, a fresh stream, one call. -/
def main [DivisionRing α] (exp : α → α) : Caller α :=
  callFDTD exp 100 377 200 ⟨Loss.zero, Field.zero, []⟩

/-! ## The program without the lens branch -/

/-- Body of the coefficient loop with the lens branch removed: every cell gets the
coefficients of the `else` branch (lines 99-104). -/
def coeffCellNoLens [DivisionRing α] (eps : α) (space dx dy : Nat) (lass : Loss α) : Loss α :=
  { EzH := Function.update lass.EzH (idx space dx dy) eps
    EzE := Function.update lass.EzE (idx space dx dy) 1
    HyH := Function.update lass.HyH (idx space dx dy) 1
    HyE := Function.update lass.HyE (idx space dx dy) (1 / eps)
    HxE := Function.update lass.HxE (idx space dx dy) (1 / eps)
    HxH := Function.update lass.HxH (idx space dx dy) 1 }

/-- The coefficient loop with the lens branch removed. -/
def relPermittivityNoLens [DivisionRing α] (eps : α) (space : Nat) (lass : Loss α) : Loss α :=
  forCells (loopRange 0 space) (loopRange 0 space) (coeffCellNoLens eps space) lass

/-- The subroutine `FDTD` with the lens branch removed; the time loop is the same. -/
def FDTDNoLens [DivisionRing α] (exp : α → α) (EM : Field α) (final_time : Nat) (eps : α)
    (space : Nat) (lass : Loss α) (output : List (Line α)) : Run α :=
  timeLoop exp final_time space (relPermittivityNoLens eps space lass) ⟨EM, output⟩

/-- The bracket that the `Ez` update multiplies by `EzH[x]` at the cell `(x, y)`
(lines 147-150). -/
def ezBracket [DivisionRing α] (space : Nat) (EM : Field α) (x y : Nat) : α :=
  EM.Hy (idx space x y) - EM.Hy (idx space (x - 1) y)
    - EM.Hx (idx space x y) - EM.Hx (idx space x (y - 1))

/-- Two coefficient grids that agree on the grid except for `EzH` in the columns
`100 < x < 150`. -/
def AgreeOffLens [DivisionRing α] (space : Nat) (L M : Loss α) : Prop :=
  ∀ x y, x < space → y < space →
    L.EzE (idx space x y) = M.EzE (idx space x y)
      ∧ L.HyH (idx space x y) = M.HyH (idx space x y)
      ∧ L.HyE (idx space x y) = M.HyE (idx space x y)
      ∧ L.HxH (idx space x y) = M.HxH (idx space x y)
      ∧ L.HxE (idx space x y) = M.HxE (idx space x y)
      ∧ (¬ (100 < x ∧ x < 150) → L.EzH (idx space x y) = M.EzH (idx space x y))

/-! ## The indices used by `FDTD` -/

/-- The linear index `(i) + (j) * space` of the indexing macros, computed on
`int` operands. -/
def idxInt (space i j : Int) : Int := i + j * space

/-- The indices collected by a nested loop whose body uses the indices
`g dx dy`, in program order. -/
def cellIdx (xs ys : List Nat) (g : Nat → Nat → List Int) : List Int :=
  forCells xs ys (fun dx dy acc => acc ++ g dx dy) []

/-- Indices used by the body of the coefficient loop (either branch, lines 91-96
or 99-104): six stores at `(dx, dy)`. -/
def coeffCellIdx (space dx dy : Nat) : List Int :=
  [idxInt space dx dy, idxInt space dx dy, idxInt space dx dy,
    idxInt space dx dy, idxInt space dx dy, idxInt space dx dy]

/-- Indices used by the body of the `Hy` loop (lines 118-120): the store to
`Hy(dx, dy)`, then the loads of `HyH(dx, dy)`, `Hy(dx, dy)`, `HyE(dx, dy)`,
`Ez(dx + 1, dy)` and `Ez(dx, dy)`. -/
def hyCellIdx (space dx dy : Nat) : List Int :=
  [idxInt space dx dy, idxInt space dx dy, idxInt space dx dy, idxInt space dx dy,
    idxInt space ((dx : Int) + 1) dy, idxInt space dx dy]

/-- Indices used by the body of the `Hx` loop (lines 127-129): the store to
`Hx(dx, dy)`, then the loads of `HxH(dx, dy)`, `Hx(dx, dy)`, `HxE(dx, dy)`,
`Ez(dx, dy + 1)` and `Ez(dx, dy)`. -/
def hxCellIdx (space dx dy : Nat) : List Int :=
  [idxInt space dx dy, idxInt space dx dy, idxInt space dx dy, idxInt space dx dy,
    idxInt space dx ((dy : Int) + 1), idxInt space dx dy]

/-- Indices used by the body of the `Ez` loop (lines 146-150): the store to
`Ez(dx, dy)`, then the loads of `EzE(dx, dy)`, `Ez(dx, dy)`, `EzH[dx]`,
`Hy(dx, dy)`, `Hy(dx - 1, dy)`, `Hx(dx, dy)` and `Hx(dx, dy - 1)`. -/
def ezCellIdx (space dx dy : Nat) : List Int :=
  [idxInt space dx dy, idxInt space dx dy, idxInt space dx dy, (dx : Int),
    idxInt space dx dy, idxInt space ((dx : Int) - 1) dy, idxInt space dx dy,
    idxInt space dx ((dy : Int) - 1)]

/-- Index used by the body of the sampling loop (line 171): the load of
`Hx(dx, dy)`. -/
def sampleCellIdx (space dx dy : Nat) : List Int := [idxInt space dx dy]

/-- Indices used by one iteration of the time loop, in program order: the `Hy`
pass, the `Hx` pass, the patch `Ez[0] = Ez[1]`, the `Ez` pass, the injection
`Ez[50] += ...` and, in a sampled step, the sampling loops. -/
def stepIdx (space t : Nat) : List Int :=
  cellIdx (loopRange 0 (space - 1)) (loopRange 0 space) (hyCellIdx space)
    ++ cellIdx (loopRange 0 space) (loopRange 0 (space - 1)) (hxCellIdx space)
    ++ [0, 1]
    ++ cellIdx (loopRange 1 (space - 1)) (loopRange 1 (space - 1)) (ezCellIdx space)
    ++ [50, 50]
    ++ (if t % 50 = 0 then
          cellIdx (strideLoop space 0) (strideLoop space 0) (sampleCellIdx space)
        else [])

/-- Indices used by `FDTD`: the coefficient loop, then the time loop. -/
def FDTDIdx (final_time space : Nat) : List Int :=
  cellIdx (loopRange 0 space) (loopRange 0 space) (coeffCellIdx space)
    ++ (loopRange 0 final_time).flatMap (stepIdx space)

/-! ## Elements beyond the storage -/

/-- Two fields that agree at every linear index beyond the storage. -/
def FieldFrame (F G : Field α) : Prop :=
  ∀ n, storage ≤ n → F.Hx n = G.Hx n ∧ F.Hy n = G.Hy n ∧ F.Ez n = G.Ez n

/-- Two coefficient grids that agree at every linear index beyond the storage. -/
def LossFrame (L M : Loss α) : Prop :=
  ∀ n, storage ≤ n →
    L.EzH n = M.EzH n ∧ L.EzE n = M.EzE n ∧ L.HyE n = M.HyE n
      ∧ L.HyH n = M.HyH n ∧ L.HxE n = M.HxE n ∧ L.HxH n = M.HxH n

/-! ## Vocabulary of the proofs -/

/-- What a body that assigns one element of one array looks like: it leaves the
environment `env` alone and stores at `key dx dy` a value computed from the
environment and the old element. -/
structure WritesOne {σ ε : Type} (get : σ → Nat → α) (env : σ → ε) (key : Nat → Nat → Nat)
    (val : ε → Nat → Nat → α → α) (body : Nat → Nat → σ → σ) : Prop where
  env_eq : ∀ dx dy s, env (body dx dy s) = env s
  get_eq : ∀ dx dy s, get (body dx dy s)
    = Function.update (get s) (key dx dy) (val (env s) dx dy (get s (key dx dy)))

/-- Distinct cells of the two counter lists have distinct keys. -/
def KeysInjOn (key : Nat → Nat → Nat) (xs ys : List Nat) : Prop :=
  ∀ dx ∈ xs, ∀ dy ∈ ys, ∀ ex ∈ xs, ∀ ey ∈ ys, key dx dy = key ex ey → dx = ex ∧ dy = ey

/-! ## In-place sweeps are simultaneous updates -/

section Sweep

variable {σ ε : Type}

/-- The nested loop visits the cells of the product list in order. -/
theorem forCells_eq_foldl (xs ys : List Nat) (body : Nat → Nat → σ → σ) (s : σ) :
    forCells xs ys body s = (xs ×ˢ ys).foldl (fun s c => body c.1 c.2 s) s := by
  unfold forCells
  induction xs generalizing s with
  | nil => rfl
  | cons x xs ih =>
    rw [List.foldl_cons, ih, List.product_cons, List.foldl_append, List.foldl_map]

variable {get : σ → Nat → α} {env : σ → ε} {key : Nat → Nat → Nat}
  {val : ε → Nat → Nat → α → α} {body : Nat → Nat → σ → σ}

theorem WritesOne.foldl_env (h : WritesOne get env key val body) (cs : List (Nat × Nat))
    (s : σ) : env (cs.foldl (fun s c => body c.1 c.2 s) s) = env s := by
  induction cs generalizing s with
  | nil => rfl
  | cons c cs ih => rw [List.foldl_cons, ih, h.env_eq]

theorem WritesOne.foldl_get_of_not_mem (h : WritesOne get env key val body)
    (cs : List (Nat × Nat)) (s : σ) (n : Nat) (hn : ∀ c ∈ cs, key c.1 c.2 ≠ n) :
    get (cs.foldl (fun s c => body c.1 c.2 s) s) n = get s n := by
  induction cs generalizing s with
  | nil => rfl
  | cons c cs ih =>
    rw [List.foldl_cons, ih _ (fun d hd => hn d (List.mem_cons_of_mem _ hd)), h.get_eq,
      Function.update_noteq (hn c (List.mem_cons_self _ _)).symm]

theorem WritesOne.foldl_get_of_mem (h : WritesOne get env key val body)
    (cs : List (Nat × Nat)) (s : σ) (hnd : (cs.map fun c => key c.1 c.2).Nodup)
    (c : Nat × Nat) (hc : c ∈ cs) :
    get (cs.foldl (fun s c => body c.1 c.2 s) s) (key c.1 c.2)
      = val (env s) c.1 c.2 (get s (key c.1 c.2)) := by
  induction cs generalizing s with
  | nil => cases hc
  | cons c0 cs ih =>
    rw [List.map_cons, List.nodup_cons] at hnd
    obtain ⟨hhead, htail⟩ := hnd
    rw [List.foldl_cons]
    rcases List.mem_cons.1 hc with rfl | hmem
    · rw [h.foldl_get_of_not_mem cs _ _ (fun d hd hkey => hhead
        (List.mem_map.2 ⟨d, hd, hkey⟩)), h.get_eq, Function.update_same]
    · have hne : key c.1 c.2 ≠ key c0.1 c0.2 := fun hkey =>
        hhead (List.mem_map.2 ⟨c, hmem, hkey⟩)
      rw [ih _ htail hmem, h.env_eq, h.get_eq, Function.update_noteq hne]

theorem nodup_keys (xs ys : List Nat) (hx : xs.Nodup) (hy : ys.Nodup)
    (hinj : KeysInjOn key xs ys) : ((xs ×ˢ ys).map fun c => key c.1 c.2).Nodup := by
  refine List.Nodup.map_on ?_ (hx.product hy)
  rintro ⟨dx, dy⟩ hc ⟨ex, ey⟩ hd hkey
  obtain ⟨h1, h2⟩ := List.mem_product.1 hc
  obtain ⟨h3, h4⟩ := List.mem_product.1 hd
  obtain ⟨rfl, rfl⟩ := hinj dx h1 dy h2 ex h3 ey h4 hkey
  rfl

/-- The nested loop leaves the environment alone. -/
theorem WritesOne.forCells_env (h : WritesOne get env key val body) (xs ys : List Nat)
    (s : σ) : env (forCells xs ys body s) = env s := by
  rw [forCells_eq_foldl, h.foldl_env]

/-- An element that is the key of no visited cell keeps its value. -/
theorem WritesOne.forCells_get_of_not_mem (h : WritesOne get env key val body)
    (xs ys : List Nat) (s : σ) (n : Nat) (hn : ∀ dx ∈ xs, ∀ dy ∈ ys, key dx dy ≠ n) :
    get (forCells xs ys body s) n = get s n := by
  rw [forCells_eq_foldl]
  exact h.foldl_get_of_not_mem _ s n fun c hc =>
    hn c.1 (List.mem_product.1 hc).1 c.2 (List.mem_product.1 hc).2

/-- The element of a visited cell ends up with the value computed from the state
before the loop: the in-place sweep is a simultaneous update. -/
theorem WritesOne.forCells_get_of_mem (h : WritesOne get env key val body)
    (xs ys : List Nat) (hx : xs.Nodup) (hy : ys.Nodup) (hinj : KeysInjOn key xs ys)
    (s : σ) (dx dy : Nat) (hdx : dx ∈ xs) (hdy : dy ∈ ys) :
    get (forCells xs ys body s) (key dx dy) = val (env s) dx dy (get s (key dx dy)) := by
  rw [forCells_eq_foldl]
  exact h.foldl_get_of_mem _ s (nodup_keys xs ys hx hy hinj) (dx, dy)
    (List.mem_product.2 ⟨hdx, hdy⟩)

end Sweep

/-! ## Counters and linear indices -/

theorem mem_loopRange {lo hi n : Nat} : n ∈ loopRange lo hi ↔ lo ≤ n ∧ n < hi := by
  unfold loopRange
  rw [List.mem_range'_1]
  omega

theorem nodup_loopRange (lo hi : Nat) : (loopRange lo hi).Nodup :=
  List.nodup_range' _ _

theorem idx_inj {space i j k l : Nat} (hi : i < space) (hk : k < space)
    (h : idx space i j = idx space k l) : i = k ∧ j = l := by
  unfold idx at h
  have h1 : (i + j * space) % space = (k + l * space) % space := by rw [h]
  have h2 : (i + j * space) / space = (k + l * space) / space := by rw [h]
  have hpos : 0 < space := by omega
  rw [Nat.add_mul_mod_self_right, Nat.add_mul_mod_self_right, Nat.mod_eq_of_lt hi,
    Nat.mod_eq_of_lt hk] at h1
  rw [Nat.add_mul_div_right _ _ hpos, Nat.add_mul_div_right _ _ hpos,
    Nat.div_eq_of_lt hi, Nat.div_eq_of_lt hk, Nat.zero_add, Nat.zero_add] at h2
  exact ⟨h1, h2⟩

theorem keysInjOn_idx (space : Nat) (xs ys : List Nat) (hxs : ∀ dx ∈ xs, dx < space) :
    KeysInjOn (idx space) xs ys :=
  fun dx hdx _ _ ex hex _ _ h => idx_inj (hxs dx hdx) (hxs ex hex) h

/-! ## The passes of one time step, cell by cell -/

section Passes

variable [DivisionRing α]

theorem hyCell_writesOne (space : Nat) (lass : Loss α) :
    WritesOne Field.Hy (fun EM : Field α => (EM.Hx, EM.Ez)) (idx space)
      (fun e dx dy v => lass.HyH (idx space dx dy) * v
        + lass.HyE (idx space dx dy) * (e.2 (idx space (dx + 1) dy) - e.2 (idx space dx dy)))
      (hyCell space lass) :=
  ⟨fun _ _ _ => rfl, fun _ _ _ => rfl⟩

theorem hxCell_writesOne (space : Nat) (lass : Loss α) :
    WritesOne Field.Hx (fun EM : Field α => (EM.Hy, EM.Ez)) (idx space)
      (fun e dx dy v => lass.HxH (idx space dx dy) * v
        + lass.HxE (idx space dx dy) * (e.2 (idx space dx (dy + 1)) - e.2 (idx space dx dy)))
      (hxCell space lass) :=
  ⟨fun _ _ _ => rfl, fun _ _ _ => rfl⟩

theorem ezCell_writesOne (space : Nat) (lass : Loss α) :
    WritesOne Field.Ez (fun EM : Field α => (EM.Hx, EM.Hy)) (idx space)
      (fun e dx dy v => lass.EzE (idx space dx dy) * v
        + lass.EzH dx * (e.2 (idx space dx dy) - e.2 (idx space (dx - 1) dy)
            - e.1 (idx space dx dy) - e.1 (idx space dx (dy - 1))))
      (ezCell space lass) :=
  ⟨fun _ _ _ => rfl, fun _ _ _ => rfl⟩

theorem hyPass_Hx (space : Nat) (lass : Loss α) (EM : Field α) :
    (hyPass space lass EM).Hx = EM.Hx :=
  congrArg Prod.fst ((hyCell_writesOne space lass).forCells_env _ _ EM)

theorem hyPass_Ez (space : Nat) (lass : Loss α) (EM : Field α) :
    (hyPass space lass EM).Ez = EM.Ez :=
  congrArg Prod.snd ((hyCell_writesOne space lass).forCells_env _ _ EM)

theorem hxPass_Hy (space : Nat) (lass : Loss α) (EM : Field α) :
    (hxPass space lass EM).Hy = EM.Hy :=
  congrArg Prod.fst ((hxCell_writesOne space lass).forCells_env _ _ EM)

theorem hxPass_Ez (space : Nat) (lass : Loss α) (EM : Field α) :
    (hxPass space lass EM).Ez = EM.Ez :=
  congrArg Prod.snd ((hxCell_writesOne space lass).forCells_env _ _ EM)

theorem ezPass_Hx (space : Nat) (lass : Loss α) (EM : Field α) :
    (ezPass space lass EM).Hx = EM.Hx :=
  congrArg Prod.fst ((ezCell_writesOne space lass).forCells_env _ _ EM)

theorem ezPass_Hy (space : Nat) (lass : Loss α) (EM : Field α) :
    (ezPass space lass EM).Hy = EM.Hy :=
  congrArg Prod.snd ((ezCell_writesOne space lass).forCells_env _ _ EM)

/-- A visited cell of the `Hy` pass gets the value computed from the old field. -/
theorem hyPass_Hy_visited (space : Nat) (lass : Loss α) (EM : Field α) (x y : Nat)
    (hx : x + 1 < space) (hy : y < space) :
    (hyPass space lass EM).Hy (idx space x y)
      = lass.HyH (idx space x y) * EM.Hy (idx space x y)
        + lass.HyE (idx space x y) * (EM.Ez (idx space (x + 1) y) - EM.Ez (idx space x y)) :=
  (hyCell_writesOne space lass).forCells_get_of_mem _ _ (nodup_loopRange _ _)
    (nodup_loopRange _ _)
    (keysInjOn_idx space _ _ fun dx hdx => by have := (mem_loopRange.1 hdx).2; omega)
    EM x y (mem_loopRange.2 (by omega)) (mem_loopRange.2 (by omega))

/-- An element that is no visited cell of the `Hy` pass keeps its value. -/
theorem hyPass_Hy_other (space : Nat) (lass : Loss α) (EM : Field α) (n : Nat)
    (hn : ∀ dx dy, dx + 1 < space → dy < space → idx space dx dy ≠ n) :
    (hyPass space lass EM).Hy n = EM.Hy n :=
  (hyCell_writesOne space lass).forCells_get_of_not_mem _ _ EM n fun dx hdx dy hdy =>
    hn dx dy (by have := (mem_loopRange.1 hdx).2; omega) (mem_loopRange.1 hdy).2

/-- A visited cell of the `Hx` pass gets the value computed from the old field. -/
theorem hxPass_Hx_visited (space : Nat) (lass : Loss α) (EM : Field α) (x y : Nat)
    (hx : x < space) (hy : y + 1 < space) :
    (hxPass space lass EM).Hx (idx space x y)
      = lass.HxH (idx space x y) * EM.Hx (idx space x y)
        + lass.HxE (idx space x y) * (EM.Ez (idx space x (y + 1)) - EM.Ez (idx space x y)) :=
  (hxCell_writesOne space lass).forCells_get_of_mem _ _ (nodup_loopRange _ _)
    (nodup_loopRange _ _)
    (keysInjOn_idx space _ _ fun dx hdx => (mem_loopRange.1 hdx).2)
    EM x y (mem_loopRange.2 (by omega)) (mem_loopRange.2 (by omega))

/-- An element that is no visited cell of the `Hx` pass keeps its value. -/
theorem hxPass_Hx_other (space : Nat) (lass : Loss α) (EM : Field α) (n : Nat)
    (hn : ∀ dx dy, dx < space → dy + 1 < space → idx space dx dy ≠ n) :
    (hxPass space lass EM).Hx n = EM.Hx n :=
  (hxCell_writesOne space lass).forCells_get_of_not_mem _ _ EM n fun dx hdx dy hdy =>
    hn dx dy (mem_loopRange.1 hdx).2 (by have := (mem_loopRange.1 hdy).2; omega)

/-- A visited cell of the `Ez` pass gets the value computed from the old field. -/
theorem ezPass_Ez_visited (space : Nat) (lass : Loss α) (EM : Field α) (x y : Nat)
    (hx1 : 1 ≤ x) (hx : x + 1 < space) (hy1 : 1 ≤ y) (hy : y + 1 < space) :
    (ezPass space lass EM).Ez (idx space x y)
      = lass.EzE (idx space x y) * EM.Ez (idx space x y)
        + lass.EzH x * (EM.Hy (idx space x y) - EM.Hy (idx space (x - 1) y)
            - EM.Hx (idx space x y) - EM.Hx (idx space x (y - 1))) :=
  (ezCell_writesOne space lass).forCells_get_of_mem _ _ (nodup_loopRange _ _)
    (nodup_loopRange _ _)
    (keysInjOn_idx space _ _ fun dx hdx => by have := (mem_loopRange.1 hdx).2; omega)
    EM x y (mem_loopRange.2 (by omega)) (mem_loopRange.2 (by omega))

/-- An element that is no visited cell of the `Ez` pass keeps its value. -/
theorem ezPass_Ez_other (space : Nat) (lass : Loss α) (EM : Field α) (n : Nat)
    (hn : ∀ dx dy, 1 ≤ dx → dx + 1 < space → 1 ≤ dy → dy + 1 < space →
      idx space dx dy ≠ n) :
    (ezPass space lass EM).Ez n = EM.Ez n :=
  (ezCell_writesOne space lass).forCells_get_of_not_mem _ _ EM n fun dx hdx dy hdy =>
    hn dx dy (mem_loopRange.1 hdx).1 (by have := (mem_loopRange.1 hdx).2; omega)
      (mem_loopRange.1 hdy).1 (by have := (mem_loopRange.1 hdy).2; omega)

end Passes

/-! ## The coefficient loop, cell by cell -/

section Coefficients

variable [DivisionRing α]

/-- Inside the grid, a coefficient written by the loop body as `A` in the lens
band and `B` outside it has that value after the loop. -/
theorem relPermittivity_get (get : Loss α → Nat → α) (loss eps A B : α) (space : Nat)
    (h : WritesOne get (fun _ : Loss α => ()) (idx space)
      (fun _ dx _ _ => if 100 < dx ∧ dx < 150 then A else B) (coeffCell loss eps space))
    (lass : Loss α) (x y : Nat) (hx : x < space) (hy : y < space) :
    get (relPermittivity loss eps space lass) (idx space x y)
      = if 100 < x ∧ x < 150 then A else B :=
  h.forCells_get_of_mem _ _ (nodup_loopRange _ _) (nodup_loopRange _ _)
    (keysInjOn_idx space _ _ fun dx hdx => (mem_loopRange.1 hdx).2)
    lass x y (mem_loopRange.2 (by omega)) (mem_loopRange.2 (by omega))

theorem relPermittivity_EzH (loss eps : α) (space : Nat) (lass : Loss α) (x y : Nat)
    (hx : x < space) (hy : y < space) :
    (relPermittivity loss eps space lass).EzH (idx space x y)
      = if 100 < x ∧ x < 150 then eps / 9 / (1 - loss) else eps :=
  relPermittivity_get Loss.EzH loss eps _ _ space
    ⟨fun _ _ _ => rfl, fun dx dy s => by unfold coeffCell; split <;> simp [*]⟩ lass x y hx hy

theorem relPermittivity_EzE (loss eps : α) (space : Nat) (lass : Loss α) (x y : Nat)
    (hx : x < space) (hy : y < space) :
    (relPermittivity loss eps space lass).EzE (idx space x y)
      = if 100 < x ∧ x < 150 then (1 - loss) / (1 + loss) else 1 :=
  relPermittivity_get Loss.EzE loss eps _ _ space
    ⟨fun _ _ _ => rfl, fun dx dy s => by unfold coeffCell; split <;> simp [*]⟩ lass x y hx hy

theorem relPermittivity_HyH (loss eps : α) (space : Nat) (lass : Loss α) (x y : Nat)
    (hx : x < space) (hy : y < space) :
    (relPermittivity loss eps space lass).HyH (idx space x y)
      = if 100 < x ∧ x < 150 then (1 - loss) / (1 + loss) else 1 :=
  relPermittivity_get Loss.HyH loss eps _ _ space
    ⟨fun _ _ _ => rfl, fun dx dy s => by unfold coeffCell; split <;> simp [*]⟩ lass x y hx hy

theorem relPermittivity_HxH (loss eps : α) (space : Nat) (lass : Loss α) (x y : Nat)
    (hx : x < space) (hy : y < space) :
    (relPermittivity loss eps space lass).HxH (idx space x y)
      = if 100 < x ∧ x < 150 then (1 - loss) / (1 + loss) else 1 :=
  relPermittivity_get Loss.HxH loss eps _ _ space
    ⟨fun _ _ _ => rfl, fun dx dy s => by unfold coeffCell; split <;> simp [*]⟩ lass x y hx hy

theorem relPermittivity_HyE (loss eps : α) (space : Nat) (lass : Loss α) (x y : Nat)
    (hx : x < space) (hy : y < space) :
    (relPermittivity loss eps space lass).HyE (idx space x y)
      = if 100 < x ∧ x < 150 then (1 / eps) / (1 + loss) else 1 / eps :=
  relPermittivity_get Loss.HyE loss eps _ _ space
    ⟨fun _ _ _ => rfl, fun dx dy s => by unfold coeffCell; split <;> simp [*]⟩ lass x y hx hy

theorem relPermittivity_HxE (loss eps : α) (space : Nat) (lass : Loss α) (x y : Nat)
    (hx : x < space) (hy : y < space) :
    (relPermittivity loss eps space lass).HxE (idx space x y)
      = if 100 < x ∧ x < 150 then (1 / eps) / (1 + loss) else 1 / eps :=
  relPermittivity_get Loss.HxE loss eps _ _ space
    ⟨fun _ _ _ => rfl, fun dx dy s => by unfold coeffCell; split <;> simp [*]⟩ lass x y hx hy

end Coefficients

/-! ## The sampling block and the output -/

theorem strideLoop_eq_map (space start : Nat) :
    strideLoop space start
      = (List.range ((space + 4 - start) / 5)).map fun i => start + 5 * i := by
  generalize hd : space - start = d
  induction d using Nat.strong_induction_on generalizing start with
  | _ d ih =>
    rw [strideLoop]
    split
    · rename_i hlt
      rw [ih (space - (start + 5)) (by omega) (start + 5) rfl]
      have hk : (space + 4 - start) / 5 = (space + 4 - (start + 5)) / 5 + 1 := by omega
      rw [hk, List.range_succ_eq_map, List.map_cons, List.map_map]
      simp only [Nat.mul_zero, Nat.add_zero, List.cons.injEq, true_and]
      apply List.map_congr_left
      intro i _
      simp only [Function.comp_apply, Nat.succ_eq_add_one]
      omega
    · rename_i hge
      have hk : (space + 4 - start) / 5 = 0 := by omega
      rw [hk]
      rfl

theorem strideLoop_zero (space : Nat) :
    strideLoop space 0 = (List.range ((space + 4) / 5)).map fun i => 5 * i := by
  rw [strideLoop_eq_map]
  simp

theorem length_strideLoop (space : Nat) : (strideLoop space 0).length = (space + 4) / 5 := by
  rw [strideLoop_zero, List.length_map, List.length_range]

theorem mem_strideLoop {space x : Nat} : x ∈ strideLoop space 0 ↔ x < space ∧ 5 ∣ x := by
  rw [strideLoop_zero, List.mem_map]
  constructor
  · rintro ⟨i, hi, rfl⟩
    have := List.mem_range.1 hi
    exact ⟨by omega, Dvd.intro _ rfl⟩
  · rintro ⟨hx, k, rfl⟩
    exact ⟨k, List.mem_range.2 (by omega), rfl⟩

theorem pairwise_strideLoop (space : Nat) : (strideLoop space 0).Pairwise (· < ·) := by
  rw [strideLoop_zero, List.pairwise_map]
  exact (List.pairwise_lt_range _).imp fun h => by omega

theorem ceil_div_five (space : Nat) : ⌈(space : ℚ) / 5⌉₊ = (space + 4) / 5 := by
  apply le_antisymm
  · rw [Nat.ceil_le, div_le_iff₀ (by norm_num)]
    have h : space ≤ (space + 4) / 5 * 5 := by omega
    exact_mod_cast h
  · have h := Nat.le_ceil ((space : ℚ) / 5)
    rw [div_le_iff₀ (by norm_num)] at h
    have h2 : space ≤ ⌈(space : ℚ) / 5⌉₊ * 5 := by exact_mod_cast h
    omega

theorem foldl_append_singleton {β γ : Type} (g : β → γ) (cs : List β) (out : List γ) :
    cs.foldl (fun out c => out ++ [g c]) out = out ++ cs.map g := by
  induction cs generalizing out with
  | nil => simp
  | cons c cs ih => rw [List.foldl_cons, ih]; simp

/-- The sampling block appends the records of the frame and two bare newlines. -/
theorem sample_eq (space t : Nat) (EM : Field α) (out : List (Line α)) :
    sample space t EM out = out ++ (frame space t EM ++ [Line.blank, Line.blank]) := by
  unfold sample frame
  rw [forCells_eq_foldl]
  unfold sampleCell
  rw [foldl_append_singleton
    (fun c : Nat × Nat => Line.record t c.1 c.2 (EM.Hx (idx space c.1 c.2)))]
  simp

theorem recordKeys_append (a b : List (Line α)) :
    recordKeys (a ++ b) = recordKeys a ++ recordKeys b :=
  List.filterMap_append _ _ _

theorem recordKeys_frame (space t : Nat) (EM : Field α) :
    recordKeys (frame space t EM) = frameKeys space t := by
  unfold recordKeys frame frameKeys
  rw [List.filterMap_map]
  rw [← List.filterMap_eq_map]
  rfl

theorem recordKeys_sample (space t : Nat) (EM : Field α) :
    recordKeys (sample space t EM []) = frameKeys space t := by
  rw [sample_eq, List.nil_append, recordKeys_append, recordKeys_frame]
  simp [recordKeys, Line.key]

theorem length_frameKeys (space t : Nat) :
    (frameKeys space t).length = (space + 4) / 5 * ((space + 4) / 5) := by
  unfold frameKeys
  rw [List.length_map, List.length_product, length_strideLoop]

theorem mem_frameKeys {space t : Nat} {k : Nat × Nat × Nat} :
    k ∈ frameKeys space t
      ↔ k.1 = t ∧ (k.2.1 < space ∧ 5 ∣ k.2.1) ∧ (k.2.2 < space ∧ 5 ∣ k.2.2) := by
  unfold frameKeys
  rw [List.mem_map]
  constructor
  · rintro ⟨⟨x, y⟩, hc, rfl⟩
    obtain ⟨hx, hy⟩ := List.mem_product.1 hc
    exact ⟨rfl, mem_strideLoop.1 hx, mem_strideLoop.1 hy⟩
  · obtain ⟨t', x, y⟩ := k
    rintro ⟨rfl, hx, hy⟩
    exact ⟨(x, y), List.mem_product.2 ⟨mem_strideLoop.2 hx, mem_strideLoop.2 hy⟩, rfl⟩

/-- Keys built from increasing counter lists increase lexicographically. -/
theorem pairwise_keyLt (ts xs ys : List Nat) (hts : ts.Pairwise (· < ·))
    (hxs : xs.Pairwise (· < ·)) (hys : ys.Pairwise (· < ·)) :
    (ts.flatMap fun t => (xs ×ˢ ys).map fun c => (t, c.1, c.2)).Pairwise keyLt := by
  rw [List.pairwise_flatMap]
  constructor
  · intro t _
    rw [List.pairwise_map]
    show List.Pairwise _ (xs.flatMap fun x => ys.map (Prod.mk x))
    rw [List.pairwise_flatMap]
    constructor
    · intro x _
      rw [List.pairwise_map]
      exact hys.imp fun h => Or.inr ⟨rfl, Or.inr ⟨rfl, h⟩⟩
    · refine hxs.imp fun {x x'} h c hc d hd => ?_
      obtain ⟨_, _, rfl⟩ := List.mem_map.1 hc
      obtain ⟨_, _, rfl⟩ := List.mem_map.1 hd
      exact Or.inr ⟨rfl, Or.inl h⟩
  · refine hts.imp fun {t t'} h k hk l hl => ?_
    obtain ⟨_, _, rfl⟩ := List.mem_map.1 hk
    obtain ⟨_, _, rfl⟩ := List.mem_map.1 hl
    exact Or.inl h

theorem pairwise_sampledSteps (final_time : Nat) :
    (sampledSteps final_time).Pairwise (· < ·) :=
  (List.pairwise_lt_range' _ _).filter _

theorem loopRange_zero_succ (n : Nat) : loopRange 0 (n + 1) = loopRange 0 n ++ [n] := by
  unfold loopRange
  rw [Nat.sub_zero, Nat.sub_zero, List.range'_1_concat, Nat.zero_add]

theorem sampledSteps_succ (n : Nat) :
    sampledSteps (n + 1) = sampledSteps n ++ if n % 50 = 0 then [n] else [] := by
  unfold sampledSteps
  rw [loopRange_zero_succ, List.filter_append]
  by_cases h : n % 50 = 0 <;> simp [h]

/-! ## The time loop -/

section TimeLoop

variable [DivisionRing α]

theorem timeLoop_zero (exp : α → α) (space : Nat) (lass : Loss α) (s : Run α) :
    timeLoop exp 0 space lass s = s := rfl

/-- Running one more step: the loop for `n + 1` steps is step `n` after the loop
for `n` steps. -/
theorem timeLoop_succ (exp : α → α) (n space : Nat) (lass : Loss α) (s : Run α) :
    timeLoop exp (n + 1) space lass s
      = timeStep exp space lass n (timeLoop exp n space lass s) := by
  unfold timeLoop loopRange
  rw [Nat.sub_zero, Nat.sub_zero, List.range'_1_concat, List.foldl_append]
  simp

end TimeLoop

theorem timeLoop_EM_succ [DivisionRing α] (exp : α → α) (n space : Nat) (lass : Loss α)
    (s : Run α) :
    (timeLoop exp (n + 1) space lass s).EM
      = stepField exp space lass n (timeLoop exp n space lass s).EM := by
  rw [timeLoop_succ]
  rfl

/-- The frame only reads `Hx`. -/
theorem frame_congr (space t : Nat) (A B : Field α) (h : A.Hx = B.Hx) :
    frame space t A = frame space t B := by
  unfold frame
  rw [h]

/-- The field sampled in a step has the `Hx` left by that step's `Hx` pass. -/
theorem stepField_Hx [DivisionRing α] (exp : α → α) (space : Nat) (lass : Loss α) (t : Nat)
    (EM : Field α) :
    (stepField exp space lass t EM).Hx = (hxPass space lass (hyPass space lass EM)).Hx := by
  unfold stepField
  show (ezPass space lass (patch (hxPass space lass (hyPass space lass EM)))).Hx = _
  rw [ezPass_Hx]
  rfl

/-- The output of the time loop: what was there, then for every sampled step its
frame followed by two bare newlines. -/
theorem timeLoop_output [DivisionRing α] (exp : α → α) (n space : Nat) (lass : Loss α)
    (s : Run α) :
    (timeLoop exp n space lass s).output
      = s.output ++ (sampledSteps n).flatMap fun t =>
          frame space t (hxPass space lass (hyPass space lass (timeLoop exp t space lass s).EM))
            ++ [Line.blank, Line.blank] := by
  induction n with
  | zero => simp [timeLoop_zero, sampledSteps, loopRange]
  | succ n ih =>
    rw [timeLoop_succ, sampledSteps_succ, List.flatMap_append]
    unfold timeStep
    by_cases h : n % 50 = 0
    · simp only [h, if_true]
      rw [sample_eq, ih, frame_congr space n _ _ (stepField_Hx exp space lass n _)]
      simp
    · simp only [h, if_false]
      rw [ih]
      simp

/-- The record columns of the output of the time loop started on an empty output. -/
theorem recordKeys_flatMap_frames (space : Nat) (ts : List Nat) (F : Nat → Field α) :
    recordKeys (ts.flatMap fun t => frame space t (F t) ++ [Line.blank, Line.blank])
      = ts.flatMap fun t => frameKeys space t := by
  induction ts with
  | nil => rfl
  | cons t ts ih =>
    rw [List.flatMap_cons, List.flatMap_cons, recordKeys_append, ih, recordKeys_append,
      recordKeys_frame]
    simp [recordKeys, Line.key]

theorem nodup_frameKeys (space t : Nat) : (frameKeys space t).Nodup := by
  have hs : (strideLoop space 0).Nodup := (pairwise_strideLoop space).imp fun h => by omega
  unfold frameKeys
  refine List.Nodup.map ?_ (hs.product hs)
  rintro ⟨a, b⟩ ⟨c, d⟩ h
  simp only [Prod.mk.injEq] at h
  rw [h.2.1, h.2.2]

theorem mem_sampledSteps {final_time t : Nat} :
    t ∈ sampledSteps final_time ↔ t < final_time ∧ t % 50 = 0 := by
  unfold sampledSteps
  rw [List.mem_filter, mem_loopRange]
  simp

theorem FDTD_output [DivisionRing α] (exp : α → α) (EM : Field α) (final_time : Nat) (eps : α)
    (space : Nat) (lass : Loss α) :
    (FDTD exp EM final_time eps space lass []).output
      = (sampledSteps final_time).flatMap fun t =>
          frame space t
              (hxPass space (relPermittivity 0 eps space lass)
                (hyPass space (relPermittivity 0 eps space lass)
                  (FDTD exp EM t eps space lass []).EM))
            ++ [Line.blank, Line.blank] := by
  unfold FDTD
  rw [timeLoop_output]
  rfl

theorem FDTD_recordKeys [DivisionRing α] (exp : α → α) (EM : Field α) (final_time : Nat)
    (eps : α) (space : Nat) (lass : Loss α) :
    recordKeys (FDTD exp EM final_time eps space lass []).output
      = (sampledSteps final_time).flatMap fun t => frameKeys space t := by
  rw [FDTD_output, recordKeys_flatMap_frames space (sampledSteps final_time) fun t =>
    hxPass space (relPermittivity 0 eps space lass)
      (hyPass space (relPermittivity 0 eps space lass) (FDTD exp EM t eps space lass []).EM)]

/-- The elements 0 and 1 of `Ez` across a step, for any `space`. -/
theorem FDTD_patch_row [DivisionRing α] (exp : α → α) (EM : Field α) (eps : α)
    (space : Nat) (lass : Loss α) (out : List (Line α)) (t : Nat) (F : Field α) :
    (FDTD exp EM (t + 1) eps space lass out).EM.Ez 0
        = (hxPass space (relPermittivity 0 eps space lass)
            (hyPass space (relPermittivity 0 eps space lass)
              (FDTD exp EM t eps space lass out).EM)).Ez 1
      ∧ (FDTD exp EM (t + 1) eps space lass out).EM.Ez 0
        = (FDTD exp EM t eps space lass out).EM.Ez 1
      ∧ (inject exp t (ezPass space (relPermittivity 0 eps space lass) F)).Ez 0 = F.Ez 0
      ∧ (inject exp t (ezPass space (relPermittivity 0 eps space lass) F)).Ez 1 = F.Ez 1 := by
  have hkeep : ∀ (L : Loss α) (G : Field α) (n : Nat), n < 2 →
      (inject exp t (ezPass space L G)).Ez n = G.Ez n := by
    intro L G n hn
    have h50 : n ≠ 50 := by omega
    show Function.update (ezPass space L G).Ez 50 _ n = _
    rw [Function.update_noteq h50]
    refine ezPass_Ez_other space L G n fun dx dy h1 _ h3 _ hkey => ?_
    unfold idx at hkey
    have hrow : space ≤ dy * space := Nat.le_mul_of_pos_left space (by omega)
    omega
  have hstep : (FDTD exp EM (t + 1) eps space lass out).EM.Ez 0
      = (hxPass space (relPermittivity 0 eps space lass)
          (hyPass space (relPermittivity 0 eps space lass)
            (FDTD exp EM t eps space lass out).EM)).Ez 1 := by
    unfold FDTD
    rw [timeLoop_EM_succ]
    unfold stepField
    rw [hkeep _ _ 0 (by omega)]
    simp [patch]
  refine ⟨hstep, ?_, hkeep _ F 0 (by omega), hkeep _ F 1 (by omega)⟩
  rw [hstep, hxPass_Ez, hyPass_Ez]


/-! ## The source term as a real number -/

theorem exp_small_bounds :
    (12334 : ℝ) / 10000 ≤ Real.exp (21 / 100) ∧ Real.exp (21 / 100) ≤ 12338 / 10000 := by
  have habs : |(21 / 100 : ℝ)| = 21 / 100 := abs_of_nonneg (by norm_num)
  have h := Real.exp_bound (x := (21 / 100 : ℝ)) (by rw [habs]; norm_num) (n := 4)
    (by norm_num)
  rw [abs_le, habs] at h
  simp only [Finset.sum_range_succ, Finset.sum_range_zero, Nat.factorial] at h
  norm_num at h
  constructor <;> linarith [h.1, h.2]

theorem exp_1521_bounds :
    (4024145 : ℝ) ≤ Real.exp (1521 / 100) ∧ Real.exp (1521 / 100) ≤ 4040404 := by
  have hsplit : Real.exp (1521 / 100) = Real.exp 1 ^ 15 * Real.exp (21 / 100) := by
    rw [← Real.exp_nat_mul, ← Real.exp_add]
    norm_num
  have hlo : (2.7182818283 : ℝ) ^ 15 ≤ Real.exp 1 ^ 15 :=
    pow_le_pow_left₀ (by norm_num) Real.exp_one_gt_d9.le 15
  have hhi : Real.exp 1 ^ 15 ≤ (2.7182818286 : ℝ) ^ 15 :=
    pow_le_pow_left₀ (Real.exp_pos 1).le Real.exp_one_lt_d9.le 15
  obtain ⟨h1, h2⟩ := exp_small_bounds
  rw [hsplit]
  constructor
  · calc (4024145 : ℝ) ≤ (2.7182818283 : ℝ) ^ 15 * (12334 / 10000) := by norm_num
      _ ≤ Real.exp 1 ^ 15 * Real.exp (21 / 100) :=
          mul_le_mul hlo h1 (by norm_num) (pow_nonneg (Real.exp_pos 1).le 15)
  · calc Real.exp 1 ^ 15 * Real.exp (21 / 100)
        ≤ (2.7182818286 : ℝ) ^ 15 * (12338 / 10000) :=
          mul_le_mul hhi h2 (Real.exp_pos _).le (by norm_num)
      _ ≤ 4040404 := by norm_num

theorem sourceTerm_zero : sourceTerm Real.exp 0 = (Real.exp (1521 / 100))⁻¹ := by
  unfold sourceTerm
  rw [← Real.exp_neg]
  norm_num

/-- The first source term lies between `2.475e-7` and `2.485e-7`. -/
theorem sourceTerm_zero_bounds :
    (2475 : ℝ) / 10 ^ 10 ≤ sourceTerm Real.exp 0 ∧ sourceTerm Real.exp 0 ≤ 2485 / 10 ^ 10 := by
  obtain ⟨h1, h2⟩ := exp_1521_bounds
  have hpos : (0 : ℝ) < Real.exp (1521 / 100) := Real.exp_pos _
  rw [sourceTerm_zero]
  constructor
  · rw [le_inv_comm₀ (by norm_num) hpos]
    exact h2.trans (by norm_num)
  · rw [inv_le_comm₀ hpos (by norm_num)]
    exact le_trans (by norm_num) h1

/-! ## The variant with a two-dimensional `EzH` index -/

theorem forCells_congr {σ : Type} (xs ys : List Nat) (body body2 : Nat → Nat → σ → σ)
    (h : ∀ dx ∈ xs, ∀ dy ∈ ys, ∀ s, body dx dy s = body2 dx dy s) (s : σ) :
    forCells xs ys body s = forCells xs ys body2 s := by
  unfold forCells
  induction xs generalizing s with
  | nil => rfl
  | cons x xs ihx =>
    rw [List.foldl_cons, List.foldl_cons,
      ihx (fun dx hdx => h dx (List.mem_cons_of_mem _ hdx))]
    congr 1
    have hx := h x (List.mem_cons_self _ _)
    clear ihx h
    induction ys generalizing s with
    | nil => rfl
    | cons y ys ihy =>
      rw [List.foldl_cons, List.foldl_cons, hx y (List.mem_cons_self _ _),
        ihy _ (fun dy hdy => hx dy (List.mem_cons_of_mem _ hdy))]

/-- After the coefficient loop, `EzH[x]` is the `EzH` of every cell of column `x`. -/
theorem relPermittivity_EzH_column [DivisionRing α] (loss eps : α) (space : Nat)
    (lass : Loss α) (x y : Nat) (hx : x < space) (hy : y < space) :
    (relPermittivity loss eps space lass).EzH x
      = (relPermittivity loss eps space lass).EzH (idx space x y) := by
  have h0 : idx space x 0 = x := by simp [idx]
  rw [relPermittivity_EzH loss eps space lass x y hx hy]
  conv_lhs => rw [← h0]
  rw [relPermittivity_EzH loss eps space lass x 0 hx (by omega)]

theorem ezPass2D_eq [DivisionRing α] (eps : α) (space : Nat) (lass : Loss α) (EM : Field α) :
    ezPass2D space (relPermittivity 0 eps space lass) EM
      = ezPass space (relPermittivity 0 eps space lass) EM := by
  unfold ezPass2D ezPass
  refine forCells_congr _ _ _ _ (fun dx hdx dy hdy s => ?_) EM
  have h1 := (mem_loopRange.1 hdx).2
  have h2 := (mem_loopRange.1 hdy).2
  unfold ezCell2D ezCell
  rw [relPermittivity_EzH_column 0 eps space lass dx dy (by omega) (by omega)]

theorem timeStep2D_eq [DivisionRing α] (exp : α → α) (eps : α) (space : Nat) (lass : Loss α)
    (t : Nat) (s : Run α) :
    timeStep2D exp space (relPermittivity 0 eps space lass) t s
      = timeStep exp space (relPermittivity 0 eps space lass) t s := by
  unfold timeStep2D timeStep stepField2D stepField
  rw [ezPass2D_eq]

theorem FDTD2D_eq [DivisionRing α] (exp : α → α) (EM : Field α) (final_time : Nat) (eps : α)
    (space : Nat) (lass : Loss α) (out : List (Line α)) :
    FDTD2D exp EM final_time eps space lass out = FDTD exp EM final_time eps space lass out := by
  unfold FDTD2D FDTD timeLoop2D timeLoop
  congr 1
  funext s t
  exact timeStep2D_eq exp eps space lass t s

/-! ## The passes at a cell of the grid -/

section Cells

variable [DivisionRing α]

theorem idx_zero_right (space x : Nat) : idx space x 0 = x := by simp [idx]

theorem idx_eq_zero {space x y : Nat} (hx : x < space) :
    idx space x y = 0 ↔ x = 0 ∧ y = 0 := by
  constructor
  · intro h
    have h0 : idx space x y = idx space 0 0 := by rw [h]; simp [idx]
    exact idx_inj hx (by omega) h0
  · rintro ⟨rfl, rfl⟩
    simp [idx]

theorem idx_eq_fifty {space x y : Nat} (hs : 50 < space) (hx : x < space) :
    idx space x y = 50 ↔ x = 50 ∧ y = 0 := by
  constructor
  · intro h
    have h0 : idx space x y = idx space 50 0 := by rw [h, idx_zero_right]
    exact idx_inj hx hs h0
  · rintro ⟨rfl, rfl⟩
    exact idx_zero_right _ _

/-- The `Hy` pass at a cell of the grid. -/
theorem hyPass_Hy_cell (space : Nat) (lass : Loss α) (EM : Field α) (x y : Nat)
    (hx : x < space) (hy : y < space) :
    (hyPass space lass EM).Hy (idx space x y)
      = if x + 1 < space then
          lass.HyH (idx space x y) * EM.Hy (idx space x y)
            + lass.HyE (idx space x y)
              * (EM.Ez (idx space (x + 1) y) - EM.Ez (idx space x y))
        else EM.Hy (idx space x y) := by
  split
  · rename_i h
    exact hyPass_Hy_visited space lass EM x y h hy
  · rename_i h
    refine hyPass_Hy_other space lass EM _ fun dx dy hdx _ hkey => ?_
    have := (idx_inj (by omega) hx hkey).1
    omega

/-- The `Hx` pass at a cell of the grid. -/
theorem hxPass_Hx_cell (space : Nat) (lass : Loss α) (EM : Field α) (x y : Nat)
    (hx : x < space) (_hy : y < space) :
    (hxPass space lass EM).Hx (idx space x y)
      = if y + 1 < space then
          lass.HxH (idx space x y) * EM.Hx (idx space x y)
            + lass.HxE (idx space x y)
              * (EM.Ez (idx space x (y + 1)) - EM.Ez (idx space x y))
        else EM.Hx (idx space x y) := by
  split
  · rename_i h
    exact hxPass_Hx_visited space lass EM x y hx h
  · rename_i h
    refine hxPass_Hx_other space lass EM _ fun dx dy hdx hdy hkey => ?_
    have := (idx_inj hdx hx hkey).2
    omega

/-- The `Ez` pass at a cell of the grid. -/
theorem ezPass_Ez_cell (space : Nat) (lass : Loss α) (EM : Field α) (x y : Nat)
    (hx : x < space) (_hy : y < space) :
    (ezPass space lass EM).Ez (idx space x y)
      = if 1 ≤ x ∧ x + 1 < space ∧ 1 ≤ y ∧ y + 1 < space then
          lass.EzE (idx space x y) * EM.Ez (idx space x y)
            + lass.EzH x * (EM.Hy (idx space x y) - EM.Hy (idx space (x - 1) y)
                - EM.Hx (idx space x y) - EM.Hx (idx space x (y - 1)))
        else EM.Ez (idx space x y) := by
  split
  · rename_i h
    exact ezPass_Ez_visited space lass EM x y h.1 h.2.1 h.2.2.1 h.2.2.2
  · rename_i h
    refine ezPass_Ez_other space lass EM _ fun dx dy h1 h2 h3 h4 hkey => ?_
    have := idx_inj (by omega) hx hkey
    omega

theorem stepField_Hy (exp : α → α) (space : Nat) (lass : Loss α) (t : Nat) (EM : Field α) :
    (stepField exp space lass t EM).Hy = (hyPass space lass EM).Hy := by
  unfold stepField
  show (ezPass space lass (patch (hxPass space lass (hyPass space lass EM)))).Hy = _
  rw [ezPass_Hy]
  show (hxPass space lass (hyPass space lass EM)).Hy = _
  rw [hxPass_Hy]

/-- The `Ez` left by one step at a cell of the grid, when linear index 50 lies in
row 0: the source cell `(50, 0)` receives the source term, an interior cell the
update with the magnetic field of this step, the cell `(0, 0)` the old `Ez[1]`,
and every other cell keeps its value. -/
theorem stepField_Ez_cell (exp : α → α) (space : Nat) (lass : Loss α) (t : Nat)
    (EM : Field α) (x y : Nat) (hs : 50 < space) (hx : x < space) (hy : y < space) :
    (stepField exp space lass t EM).Ez (idx space x y)
      = if x = 50 ∧ y = 0 then EM.Ez 50 + sourceTerm exp t
        else if 1 ≤ x ∧ x + 1 < space ∧ 1 ≤ y ∧ y + 1 < space then
          lass.EzE (idx space x y) * EM.Ez (idx space x y)
            + lass.EzH x
              * ((hyPass space lass EM).Hy (idx space x y)
                  - (hyPass space lass EM).Hy (idx space (x - 1) y)
                  - (hxPass space lass (hyPass space lass EM)).Hx (idx space x y)
                  - (hxPass space lass (hyPass space lass EM)).Hx (idx space x (y - 1)))
        else if x = 0 ∧ y = 0 then EM.Ez 1
        else EM.Ez (idx space x y) := by
  have hpatchEz : ∀ n, (patch (hxPass space lass (hyPass space lass EM))).Ez n
      = if n = 0 then EM.Ez 1 else EM.Ez n := by
    intro n
    show Function.update (hxPass space lass (hyPass space lass EM)).Ez 0 _ n = _
    rw [hxPass_Ez, hyPass_Ez]
    by_cases h : n = 0
    · subst h
      simp
    · simp [h]
  have hpatchHx : (patch (hxPass space lass (hyPass space lass EM))).Hx
      = (hxPass space lass (hyPass space lass EM)).Hx := rfl
  have hpatchHy : (patch (hxPass space lass (hyPass space lass EM))).Hy
      = (hyPass space lass EM).Hy := by
    show (hxPass space lass (hyPass space lass EM)).Hy = _
    rw [hxPass_Hy]
  unfold stepField
  show Function.update (ezPass space lass _).Ez 50 _ (idx space x y) = _
  by_cases h50 : x = 50 ∧ y = 0
  · obtain ⟨rfl, rfl⟩ := h50
    rw [idx_zero_right, Function.update_same, if_pos ⟨rfl, rfl⟩]
    have h := ezPass_Ez_cell space lass
      (patch (hxPass space lass (hyPass space lass EM))) 50 0 hx hy
    rw [idx_zero_right] at h
    rw [h, if_neg (by omega), hpatchEz, if_neg (by omega)]
  · rw [if_neg h50, Function.update_noteq (fun h => h50 ((idx_eq_fifty hs hx).1 h)),
      ezPass_Ez_cell space lass _ x y hx hy, hpatchHx, hpatchHy, hpatchEz]
    by_cases hint : 1 ≤ x ∧ x + 1 < space ∧ 1 ≤ y ∧ y + 1 < space
    · have h0 : idx space x y ≠ 0 := fun h => by
        have := (idx_eq_zero hx).1 h
        omega
      rw [if_pos hint, if_pos hint, if_neg h0]
    · rw [if_neg hint, if_neg hint]
      by_cases h00 : x = 0 ∧ y = 0
      · rw [if_pos h00, if_pos ((idx_eq_zero hx).2 h00)]
      · rw [if_neg h00, if_neg (fun h => h00 ((idx_eq_zero hx).1 h))]

end Cells

/-! ## Invariants of the run from the all-zero field -/

section Invariants

variable [DivisionRing α]

theorem border_zero (space : Nat) : Border space (Field.zero : Field α) :=
  ⟨fun _ _ _ _ _ _ => rfl, fun _ _ _ _ => rfl, fun _ _ _ _ => rfl⟩

theorem front_zero (space : Nat) : Front space 0 (Field.zero : Field α) :=
  ⟨fun _ _ _ _ _ => rfl, fun _ _ _ _ _ => rfl, fun _ _ _ _ _ _ => rfl⟩

/-- Element 1 of `Ez` is the border cell `(1, 0)`. -/
theorem Border.Ez_one {space : Nat} {F : Field α} (h : Border space F) (hs : 50 < space) :
    F.Ez 1 = 0 := by
  have := h.1 1 0 (by omega) (by omega) (Or.inr (Or.inr (Or.inl rfl))) (by omega)
  rwa [idx_zero_right] at this

/-- One step keeps the border invariant. -/
theorem stepField_border (exp : α → α) (space : Nat) (lass : Loss α) (t : Nat)
    (F : Field α) (hs : 50 < space) (h : Border space F) :
    Border space (stepField exp space lass t F) := by
  refine ⟨fun x y hx hy hb hne => ?_, fun x y hx hy => ?_, fun x y hx hy => ?_⟩
  · rw [stepField_Ez_cell exp space lass t F x y hs hx hy, if_neg hne, if_neg (by omega)]
    split
    · exact h.Ez_one hs
    · exact h.1 x y hx hy hb hne
  · rw [stepField_Hy, hyPass_Hy_cell space lass F x y (by omega) hy, if_neg (by omega)]
    exact h.2.1 x y hx hy
  · rw [stepField_Hx, hxPass_Hx_cell space lass _ x y hx (by omega), if_neg (by omega),
      hyPass_Hx]
    exact h.2.2 x y hx hy

/-- One step advances the front by one cell. -/
theorem stepField_front (exp : α → α) (space : Nat) (lass : Loss α) (t n : Nat)
    (F : Field α) (hs : 50 < space) (hb : Border space F) (h : Front space n F) :
    Front space (n + 1) (stepField exp space lass t F) := by
  obtain ⟨hEz, hHx, hHy⟩ := h
  have hHy1 : ∀ x y, x < space → y < space → n + 1 ≤ dist50 x y + 1 →
      n + 1 ≤ dist50 (x + 1) y + 1 → (hyPass space lass F).Hy (idx space x y) = 0 := by
    intro x y hx hy h1 h2
    rw [hyPass_Hy_cell space lass F x y hx hy]
    split
    · rw [hHy x y hx hy (by omega) (by omega), hEz x y hx hy (by omega),
        hEz (x + 1) y (by omega) hy (by omega)]
      simp
    · exact hHy x y hx hy (by omega) (by omega)
  have hHx1 : ∀ x y, x < space → y < space → n + 1 ≤ dist50 x y + 1 →
      (hxPass space lass (hyPass space lass F)).Hx (idx space x y) = 0 := by
    intro x y hx hy h1
    rw [hxPass_Hx_cell space lass _ x y hx hy, hyPass_Hx, hyPass_Ez]
    split
    · rw [hHx x y hx hy (by omega), hEz x y hx hy (by omega),
        hEz x (y + 1) hx (by omega) (by unfold dist50 at *; omega)]
      simp
    · exact hHx x y hx hy (by omega)
  refine ⟨fun x y hx hy hd => ?_, fun x y hx hy hd => ?_, fun x y hx hy hd hd2 => ?_⟩
  · rw [stepField_Ez_cell exp space lass t F x y hs hx hy,
      if_neg (by unfold dist50 at hd; omega)]
    split
    · rename_i hint
      rw [hEz x y hx hy (by omega),
        hHy1 x y hx hy (by omega) (by unfold dist50 at *; omega),
        hHx1 x y hx hy (by omega)]
      have e1 := hHy1 (x - 1) y (by omega) hy (by unfold dist50 at *; omega)
        (by rw [Nat.sub_add_cancel hint.1]; omega)
      have e2 := hHx1 x (y - 1) hx (by omega) (by unfold dist50 at *; omega)
      rw [e1, e2]
      simp
    · split
      · exact hb.Ez_one hs
      · exact hEz x y hx hy (by omega)
  · rw [stepField_Hx]
    exact hHx1 x y hx hy hd
  · rw [stepField_Hy]
    exact hHy1 x y hx hy hd hd2

/-- The field after `n` iterations of the time loop started from the zero field
satisfies the border invariant and has its front at distance `n`. -/
theorem timeLoop_invariants (exp : α → α) (n space : Nat) (lass : Loss α)
    (out : List (Line α)) (hs : 50 < space) :
    Border space (timeLoop exp n space lass ⟨Field.zero, out⟩).EM
      ∧ Front space n (timeLoop exp n space lass ⟨Field.zero, out⟩).EM := by
  induction n with
  | zero => exact ⟨border_zero space, front_zero space⟩
  | succ n ih =>
    rw [timeLoop_EM_succ]
    exact ⟨stepField_border exp space lass n _ hs ih.1,
      stepField_front exp space lass n n _ hs ih.1 ih.2⟩

end Invariants

/-! ## Further facts about the passes and the run -/

theorem field_ext {F G : Field α} (h1 : F.Hx = G.Hx) (h2 : F.Hy = G.Hy) (h3 : F.Ez = G.Ez) :
    F = G := by
  cases F
  cases G
  simp only [Field.mk.injEq]
  exact ⟨h1, h2, h3⟩

section Further

variable [DivisionRing α]

/-- The `Hy` written by the `Hy` pass depends on the old `Hy` and on `Ez` only. -/
theorem hyPass_Hy_congr (space : Nat) (lass : Loss α) (F G : Field α) (h1 : F.Hy = G.Hy)
    (h2 : F.Ez = G.Ez) : (hyPass space lass F).Hy = (hyPass space lass G).Hy := by
  funext n
  by_cases h : ∃ dx dy, dx + 1 < space ∧ dy < space ∧ idx space dx dy = n
  · obtain ⟨dx, dy, hx, hy, rfl⟩ := h
    rw [hyPass_Hy_visited space lass F dx dy hx hy, hyPass_Hy_visited space lass G dx dy hx hy,
      h1, h2]
  · rw [hyPass_Hy_other space lass F n fun dx dy hx hy hk => h ⟨dx, dy, hx, hy, hk⟩,
      hyPass_Hy_other space lass G n fun dx dy hx hy hk => h ⟨dx, dy, hx, hy, hk⟩, h1]

/-- The `Hx` written by the `Hx` pass depends on the old `Hx` and on `Ez` only. -/
theorem hxPass_Hx_congr (space : Nat) (lass : Loss α) (F G : Field α) (h1 : F.Hx = G.Hx)
    (h2 : F.Ez = G.Ez) : (hxPass space lass F).Hx = (hxPass space lass G).Hx := by
  funext n
  by_cases h : ∃ dx dy, dx < space ∧ dy + 1 < space ∧ idx space dx dy = n
  · obtain ⟨dx, dy, hx, hy, rfl⟩ := h
    rw [hxPass_Hx_visited space lass F dx dy hx hy, hxPass_Hx_visited space lass G dx dy hx hy,
      h1, h2]
  · rw [hxPass_Hx_other space lass F n fun dx dy hx hy hk => h ⟨dx, dy, hx, hy, hk⟩,
      hxPass_Hx_other space lass G n fun dx dy hx hy hk => h ⟨dx, dy, hx, hy, hk⟩, h1]

/-- The two magnetic passes commute. -/
theorem hxPass_hyPass_comm (space : Nat) (lass : Loss α) (EM : Field α) :
    hxPass space lass (hyPass space lass EM) = hyPass space lass (hxPass space lass EM) := by
  apply field_ext
  · rw [hyPass_Hx]
    exact hxPass_Hx_congr space lass _ _ (hyPass_Hx _ _ _) (hyPass_Ez _ _ _)
  · rw [hxPass_Hy]
    exact (hyPass_Hy_congr space lass _ _ (hxPass_Hy _ _ _) (hxPass_Ez _ _ _)).symm
  · rw [hxPass_Ez, hyPass_Ez, hyPass_Ez, hxPass_Ez]

/-- Element 50 of `Ez` only receives the source term in a step. -/
theorem stepField_Ez_fifty (exp : α → α) (space : Nat) (lass : Loss α) (t : Nat)
    (EM : Field α) (hs : 50 < space) :
    (stepField exp space lass t EM).Ez 50 = EM.Ez 50 + sourceTerm exp t := by
  have h := stepField_Ez_cell exp space lass t EM 50 0 hs hs (by omega)
  rwa [idx_zero_right, if_pos ⟨rfl, rfl⟩] at h

/-- Element 50 of `Ez` after `n` iterations is its initial value plus the first
`n` source terms. -/
theorem timeLoop_Ez_fifty (exp : α → α) (n space : Nat) (lass : Loss α) (s : Run α)
    (hs : 50 < space) :
    (timeLoop exp n space lass s).EM.Ez 50
      = s.EM.Ez 50 + ∑ k in Finset.range n, sourceTerm exp k := by
  induction n with
  | zero => simp [timeLoop_zero]
  | succ n ih =>
    rw [timeLoop_EM_succ, stepField_Ez_fifty exp space lass n _ hs, ih, Finset.sum_range_succ,
      add_assoc]

/-- The border invariant and the front for the fields of `FDTD` run from the zero
field, for any `space` whose row 0 holds linear index 50. -/
theorem FDTD_invariants (exp : α → α) (n : Nat) (eps : α) (space : Nat) (lass : Loss α)
    (out : List (Line α)) (hs : 50 < space) :
    Border space (FDTD exp Field.zero n eps space lass out).EM
      ∧ Front space n (FDTD exp Field.zero n eps space lass out).EM :=
  timeLoop_invariants exp n space _ out hs

end Further

/-! ## The run from the all-zero field -/

/-- When the element 0 of `Ez` already equals the element 1, the patch is void. -/
theorem patch_eq_self (G : Field α) (h : G.Ez 1 = G.Ez 0) : patch G = G := by
  unfold patch
  rw [h, Function.update_eq_self]

section ZeroRun

variable [DivisionRing α]

/-- The border facts of a run from the zero field. -/
theorem FDTD_border (exp : α → α) (n : Nat) (eps : α) (space : Nat) (lass : Loss α)
    (out : List (Line α)) (hs : 50 < space) :
    Border space (FDTD exp Field.zero n eps space lass out).EM
      ∧ (FDTD exp Field.zero n eps space lass out).EM.Ez 0 = 0
      ∧ (FDTD exp Field.zero n eps space lass out).EM.Ez 1 = 0
      ∧ patch (hxPass space (relPermittivity 0 eps space lass)
            (hyPass space (relPermittivity 0 eps space lass)
              (FDTD exp Field.zero n eps space lass out).EM))
          = hxPass space (relPermittivity 0 eps space lass)
            (hyPass space (relPermittivity 0 eps space lass)
              (FDTD exp Field.zero n eps space lass out).EM) := by
  have hb := (FDTD_invariants exp n eps space lass out hs).1
  have h1 := hb.Ez_one hs
  have h0 : (FDTD exp Field.zero n eps space lass out).EM.Ez 0 = 0 := by
    have := hb.1 0 0 (by omega) (by omega) (Or.inl rfl) (by omega)
    rwa [idx_zero_right] at this
  refine ⟨hb, h0, h1, patch_eq_self _ ?_⟩
  rw [hxPass_Ez, hyPass_Ez, h0, h1]

end ZeroRun

/-! ## The call from `main` -/

/-- The working copy of the field is not the zero field after at least one step
with the real exponential: its element 50 is a sum of positive terms. -/
theorem FDTDBody_EM_ne_zero (n : Nat) (eps : ℝ) (space : Nat) (hn : 0 < n)
    (hs : 50 < space) :
    (FDTDBody Real.exp n eps space ⟨Field.zero, Loss.zero, []⟩).EM ≠ Field.zero := by
  intro h
  have h50 : (FDTD Real.exp Field.zero n eps space Loss.zero []).EM.Ez 50
      = (0 : ℝ) + ∑ k in Finset.range n, sourceTerm Real.exp k :=
    timeLoop_Ez_fifty Real.exp n space _ ⟨Field.zero, []⟩ hs
  have hbody : (FDTD Real.exp Field.zero n eps space Loss.zero []).EM = Field.zero := h
  rw [hbody] at h50
  have hpos : (0 : ℝ) < ∑ k in Finset.range n, sourceTerm Real.exp k :=
    Finset.sum_pos (fun k _ => Real.exp_pos _) ⟨0, Finset.mem_range.2 hn⟩
  have hz : (Field.zero : Field ℝ).Ez 50 = 0 := rfl
  rw [hz] at h50
  linarith

/-- The working copy of the coefficients is not the zero grid after the
coefficient loop: `EzE(0, 0)` is `1`. -/
theorem FDTDBody_lass_ne_zero [DivisionRing α] (exp : α → α) (n : Nat) (eps : α)
    (space : Nat) (hs : 0 < space) :
    (FDTDBody exp n eps space ⟨Field.zero, Loss.zero, []⟩).lass ≠ Loss.zero := by
  intro h
  have hbody : relPermittivity 0 eps space (Loss.zero : Loss α) = Loss.zero := h
  have h1 := relPermittivity_EzE 0 eps space (Loss.zero : Loss α) 0 0 hs hs
  rw [hbody, if_neg (by omega)] at h1
  exact zero_ne_one h1

/-! ## The program without the lens branch -/

section NoLens

variable [DivisionRing α]

/-- Inside the grid, a coefficient written by the loop body without the lens
branch as `B` has that value after the loop. -/
theorem relPermittivityNoLens_get (get : Loss α → Nat → α) (eps B : α) (space : Nat)
    (h : WritesOne get (fun _ : Loss α => ()) (idx space) (fun _ _ _ _ => B)
      (coeffCellNoLens eps space))
    (lass : Loss α) (x y : Nat) (hx : x < space) (hy : y < space) :
    get (relPermittivityNoLens eps space lass) (idx space x y) = B :=
  h.forCells_get_of_mem _ _ (nodup_loopRange _ _) (nodup_loopRange _ _)
    (keysInjOn_idx space _ _ fun dx hdx => (mem_loopRange.1 hdx).2)
    lass x y (mem_loopRange.2 (by omega)) (mem_loopRange.2 (by omega))

/-- With `loss = 0` the lens changes `EzH` in its columns and nothing else. -/
theorem agreeOffLens (eps : α) (space : Nat) (lass : Loss α) :
    AgreeOffLens space (relPermittivity 0 eps space lass)
      (relPermittivityNoLens eps space lass) := by
  intro x y hx hy
  rw [relPermittivity_EzE 0 eps space lass x y hx hy,
    relPermittivity_HyH 0 eps space lass x y hx hy,
    relPermittivity_HyE 0 eps space lass x y hx hy,
    relPermittivity_HxH 0 eps space lass x y hx hy,
    relPermittivity_HxE 0 eps space lass x y hx hy,
    relPermittivity_EzH 0 eps space lass x y hx hy,
    relPermittivityNoLens_get Loss.EzE eps 1 space ⟨fun _ _ _ => rfl, fun _ _ _ => rfl⟩
      lass x y hx hy,
    relPermittivityNoLens_get Loss.HyH eps 1 space ⟨fun _ _ _ => rfl, fun _ _ _ => rfl⟩
      lass x y hx hy,
    relPermittivityNoLens_get Loss.HyE eps (1 / eps) space ⟨fun _ _ _ => rfl, fun _ _ _ => rfl⟩
      lass x y hx hy,
    relPermittivityNoLens_get Loss.HxH eps 1 space ⟨fun _ _ _ => rfl, fun _ _ _ => rfl⟩
      lass x y hx hy,
    relPermittivityNoLens_get Loss.HxE eps (1 / eps) space ⟨fun _ _ _ => rfl, fun _ _ _ => rfl⟩
      lass x y hx hy,
    relPermittivityNoLens_get Loss.EzH eps eps space ⟨fun _ _ _ => rfl, fun _ _ _ => rfl⟩
      lass x y hx hy]
  refine ⟨by simp, by simp, by simp, by simp, by simp, fun h => by rw [if_neg h]⟩

/-- The `Hy` pass does not see the lens. -/
theorem hyPass_agree (space : Nat) (L M : Loss α) (h : AgreeOffLens space L M)
    (F : Field α) : hyPass space L F = hyPass space M F := by
  unfold hyPass
  refine forCells_congr _ _ _ _ (fun dx hdx dy hdy s => ?_) F
  have h1 := (mem_loopRange.1 hdx).2
  have h2 := (mem_loopRange.1 hdy).2
  obtain ⟨-, e1, e2, -, -, -⟩ := h dx dy (by omega) h2
  unfold hyCell
  rw [e1, e2]

/-- The `Hx` pass does not see the lens. -/
theorem hxPass_agree (space : Nat) (L M : Loss α) (h : AgreeOffLens space L M)
    (F : Field α) : hxPass space L F = hxPass space M F := by
  unfold hxPass
  refine forCells_congr _ _ _ _ (fun dx hdx dy hdy s => ?_) F
  have h1 := (mem_loopRange.1 hdx).2
  have h2 := (mem_loopRange.1 hdy).2
  obtain ⟨-, -, -, e1, e2, -⟩ := h dx dy h1 (by omega)
  unfold hxCell
  rw [e1, e2]

/-- The `Ez` pass does not see the lens when the bracket is zero at the interior
cells of the lens columns. -/
theorem ezPass_agree (space : Nat) (L M : Loss α) (h : AgreeOffLens space L M)
    (G : Field α)
    (hz : ∀ x y, 100 < x → x < 150 → 1 ≤ y → x + 1 < space → y + 1 < space →
      ezBracket space G x y = 0) :
    ezPass space L G = ezPass space M G := by
  apply field_ext
  · rw [ezPass_Hx, ezPass_Hx]
  · rw [ezPass_Hy, ezPass_Hy]
  · funext n
    by_cases hn : ∃ dx dy, 1 ≤ dx ∧ dx + 1 < space ∧ 1 ≤ dy ∧ dy + 1 < space
        ∧ idx space dx dy = n
    · obtain ⟨dx, dy, h1, h2, h3, h4, rfl⟩ := hn
      rw [ezPass_Ez_visited space L G dx dy h1 h2 h3 h4,
        ezPass_Ez_visited space M G dx dy h1 h2 h3 h4]
      obtain ⟨e1, -, -, -, -, -⟩ := h dx dy (by omega) (by omega)
      rw [e1]
      by_cases hband : 100 < dx ∧ dx < 150
      · have hb := hz dx dy hband.1 hband.2 h3 h2 h4
        unfold ezBracket at hb
        rw [hb]
        simp
      · have e6 := (h dx 0 (by omega) (by omega)).2.2.2.2.2 hband
        rw [idx_zero_right] at e6
        rw [e6]
    · rw [ezPass_Ez_other space L G n fun dx dy h1 h2 h3 h4 hk => hn ⟨dx, dy, h1, h2, h3, h4, hk⟩,
        ezPass_Ez_other space M G n fun dx dy h1 h2 h3 h4 hk => hn ⟨dx, dy, h1, h2, h3, h4, hk⟩]

/-- Behind the front the bracket of the `Ez` update of the next step is zero. -/
theorem ezBracket_eq_zero (space : Nat) (lass : Loss α) (n : Nat) (F : Field α)
    (hs : 50 < space) (hb : Border space F) (hf : Front space n F) (x y : Nat)
    (hx1 : 1 ≤ x) (hx : x + 1 < space) (hy1 : 1 ≤ y) (hy : y < space)
    (hd : n + 1 ≤ dist50 x y) :
    ezBracket space (patch (hxPass space lass (hyPass space lass F))) x y = 0 := by
  obtain ⟨-, hHx, hHy⟩ := stepField_front (fun v => v) space lass 0 n F hs hb hf
  rw [stepField_Hx] at hHx
  rw [stepField_Hy] at hHy
  have hpHx : (patch (hxPass space lass (hyPass space lass F))).Hx
      = (hxPass space lass (hyPass space lass F)).Hx := rfl
  have hpHy : (patch (hxPass space lass (hyPass space lass F))).Hy
      = (hyPass space lass F).Hy := by
    show (hxPass space lass (hyPass space lass F)).Hy = _
    rw [hxPass_Hy]
  unfold ezBracket
  rw [hpHx, hpHy, hHy x y (by omega) (by omega) (by omega) (by unfold dist50 at *; omega),
    hHx x y (by omega) (by omega) (by omega),
    hHx x (y - 1) (by omega) (by omega) (by unfold dist50 at *; omega)]
  have e1 := hHy (x - 1) y (by omega) (by omega) (by unfold dist50 at *; omega)
    (by rw [Nat.sub_add_cancel hx1]; omega)
  rw [e1]
  simp

/-- A step taken while the front has not reached the lens does not see the lens. -/
theorem stepField_agree (exp : α → α) (space : Nat) (L M : Loss α)
    (h : AgreeOffLens space L M) (t n : Nat) (F : Field α) (hs : 50 < space)
    (hb : Border space F) (hf : Front space n F) (hn : n ≤ 51) :
    stepField exp space L t F = stepField exp space M t F := by
  unfold stepField
  rw [ezPass_agree space L M h _ fun x y h1 h2 h3 h4 h5 =>
    ezBracket_eq_zero space L n F hs hb hf x y (by omega) h4 h3 (by omega)
      (by unfold dist50; omega)]
  rw [hyPass_agree space L M h, hxPass_agree space L M h]

/-- The fields of the two runs from the zero field agree for the first 52 steps. -/
theorem timeLoop_agree (exp : α → α) (space : Nat) (L M : Loss α)
    (h : AgreeOffLens space L M) (hs : 50 < space) (out : List (Line α)) (n : Nat)
    (hn : n ≤ 52) :
    (timeLoop exp n space L ⟨Field.zero, out⟩).EM
      = (timeLoop exp n space M ⟨Field.zero, out⟩).EM := by
  induction n with
  | zero => rfl
  | succ n ih =>
    rw [timeLoop_EM_succ, timeLoop_EM_succ, ← ih (by omega)]
    obtain ⟨hb, hf⟩ := timeLoop_invariants exp n space L out hs
    exact stepField_agree exp space L M h n n _ hs hb hf (by omega)

/-- The outputs of the two programs run from the zero field for at most 100 steps
are the same. -/
theorem FDTD_output_noLens (exp : α → α) (final_time : Nat) (eps : α) (space : Nat)
    (lass : Loss α) (hs : 50 < space) (hft : final_time ≤ 100) :
    (FDTD exp Field.zero final_time eps space lass []).output
      = (FDTDNoLens exp Field.zero final_time eps space lass []).output := by
  unfold FDTD FDTDNoLens
  rw [timeLoop_output, timeLoop_output]
  congr 1
  apply List.flatMap_congr
  intro t ht
  have ht' := mem_sampledSteps.1 ht
  have ht50 : t ≤ 50 := by omega
  have hag := agreeOffLens eps space lass
  rw [timeLoop_agree exp space _ _ hag hs [] t (by omega),
    hyPass_agree space _ _ hag, hxPass_agree space _ _ hag]

end NoLens

/-! ## The indices used by `FDTD` -/

theorem foldl_append_flatMap {β γ : Type} (g : β → List γ) (cs : List β) (acc : List γ) :
    cs.foldl (fun acc c => acc ++ g c) acc = acc ++ cs.flatMap g := by
  induction cs generalizing acc with
  | nil => simp
  | cons c cs ih => rw [List.foldl_cons, ih]; simp

theorem mem_cellIdx {xs ys : List Nat} {g : Nat → Nat → List Int} {i : Int} :
    i ∈ cellIdx xs ys g ↔ ∃ dx ∈ xs, ∃ dy ∈ ys, i ∈ g dx dy := by
  unfold cellIdx
  rw [forCells_eq_foldl, foldl_append_flatMap (fun c : Nat × Nat => g c.1 c.2),
    List.nil_append, List.mem_flatMap]
  constructor
  · rintro ⟨⟨dx, dy⟩, hc, hi⟩
    obtain ⟨h1, h2⟩ := List.mem_product.1 hc
    exact ⟨dx, h1, dy, h2, hi⟩
  · rintro ⟨dx, h1, dy, h2, hi⟩
    exact ⟨(dx, dy), List.mem_product.2 ⟨h1, h2⟩, hi⟩

/-- The linear index of a cell of a grid of at most 200 x 200 cells lies in the
storage. -/
theorem idxInt_bound (space : Nat) (hs : space ≤ 200) (i j : Int) (hi0 : 0 ≤ i)
    (hi : i < space) (hj0 : 0 ≤ j) (hj : j < space) :
    0 ≤ idxInt space i j ∧ idxInt space i j < (storage : Int) := by
  have hs' : (space : Int) ≤ 200 := by exact_mod_cast hs
  have hst : ((storage : Nat) : Int) = 40000 := by norm_num [storage]
  unfold idxInt
  rw [hst]
  constructor
  · positivity
  · nlinarith

/-- Every index used by one iteration of the time loop lies in the storage. -/
theorem stepIdx_bound (space t : Nat) (hs : space ≤ 200) (i : Int) (h : i ∈ stepIdx space t) :
    0 ≤ i ∧ i < (storage : Int) := by
  have hst : ((storage : Nat) : Int) = 40000 := by norm_num [storage]
  unfold stepIdx at h
  simp only [List.mem_append, mem_cellIdx] at h
  rcases h with ((((h | h) | h) | h) | h) | h
  · obtain ⟨dx, hdx, dy, hdy, hi⟩ := h
    have h1 := (mem_loopRange.1 hdx).2
    have h2 := (mem_loopRange.1 hdy).2
    unfold hyCellIdx at hi
    simp only [List.mem_cons, List.mem_singleton, List.not_mem_nil, or_false] at hi
    rcases hi with rfl | rfl | rfl | rfl | rfl | rfl <;>
      exact idxInt_bound space hs _ _ (by omega) (by omega) (by omega) (by omega)
  · obtain ⟨dx, hdx, dy, hdy, hi⟩ := h
    have h1 := (mem_loopRange.1 hdx).2
    have h2 := (mem_loopRange.1 hdy).2
    unfold hxCellIdx at hi
    simp only [List.mem_cons, List.mem_singleton, List.not_mem_nil, or_false] at hi
    rcases hi with rfl | rfl | rfl | rfl | rfl | rfl <;>
      exact idxInt_bound space hs _ _ (by omega) (by omega) (by omega) (by omega)
  · simp only [List.mem_cons, List.mem_singleton, List.not_mem_nil, or_false] at h
    rcases h with rfl | rfl <;> rw [hst] <;> omega
  · obtain ⟨dx, hdx, dy, hdy, hi⟩ := h
    have h1 := mem_loopRange.1 hdx
    have h2 := mem_loopRange.1 hdy
    unfold ezCellIdx at hi
    simp only [List.mem_cons, List.mem_singleton, List.not_mem_nil, or_false] at hi
    rcases hi with rfl | rfl | rfl | rfl | rfl | rfl | rfl | rfl
    all_goals first
      | exact idxInt_bound space hs _ _ (by omega) (by omega) (by omega) (by omega)
      | (rw [hst]; omega)
  · simp only [List.mem_cons, List.mem_singleton, List.not_mem_nil, or_false] at h
    rcases h with rfl | rfl <;> rw [hst] <;> omega
  · split at h
    · rw [mem_cellIdx] at h
      obtain ⟨dx, hdx, dy, hdy, hi⟩ := h
      have h1 := (mem_strideLoop.1 hdx).1
      have h2 := (mem_strideLoop.1 hdy).1
      unfold sampleCellIdx at hi
      simp only [List.mem_singleton] at hi
      rw [hi]
      exact idxInt_bound space hs _ _ (by omega) (by omega) (by omega) (by omega)
    · cases h

/-- Every index used by `FDTD` lies in the storage when `space <= 200`. -/
theorem FDTDIdx_bound (final_time space : Nat) (hs : space ≤ 200) (i : Int)
    (h : i ∈ FDTDIdx final_time space) : 0 ≤ i ∧ i < (storage : Int) := by
  unfold FDTDIdx at h
  rcases List.mem_append.1 h with h | h
  · obtain ⟨dx, hdx, dy, hdy, hi⟩ := mem_cellIdx.1 h
    have h1 := (mem_loopRange.1 hdx).2
    have h2 := (mem_loopRange.1 hdy).2
    unfold coeffCellIdx at hi
    simp only [List.mem_cons, List.mem_singleton, List.not_mem_nil, or_false, or_self] at hi
    rw [hi]
    exact idxInt_bound space hs _ _ (by omega) (by omega) (by omega) (by omega)
  · obtain ⟨t, -, ht⟩ := List.mem_flatMap.1 h
    exact stepIdx_bound space t hs i ht

/-! ## Statements of the run for any `space` above 50 -/

section RunFacts

variable [DivisionRing α]

/-- Up to and including step 50 the bracket of the `Ez` update is zero at the
interior cells of the lens columns. -/
theorem FDTD_bracket_zero (exp : α → α) (eps : α) (space : Nat) (lass : Loss α)
    (hs : 50 < space) (t x y : Nat) (ht : t ≤ 50) (hx1 : 100 < x) (hy1 : 1 ≤ y)
    (hx : x + 1 < space) (hy : y < space) :
    ezBracket space
        (patch (hxPass space (relPermittivity 0 eps space lass)
          (hyPass space (relPermittivity 0 eps space lass)
            (FDTD exp Field.zero t eps space lass []).EM))) x y = 0 := by
  obtain ⟨hb, hf⟩ := FDTD_invariants exp t eps space lass [] hs
  exact ezBracket_eq_zero space _ t _ hs hb hf x y (by omega) hx hy1 hy
    (by unfold dist50; omega)

/-- The lens does change the coefficient `EzH[x]` of its columns when `eps` is not
zero. -/
theorem EzH_lens_ne [CharZero α] (eps : α) (heps : eps ≠ 0) (space : Nat) (lass : Loss α)
    (x : Nat) (hx : x < space) (h1 : 100 < x) (h2 : x < 150) :
    (relPermittivity 0 eps space lass).EzH x ≠ (relPermittivityNoLens eps space lass).EzH x := by
  have e1 := relPermittivity_EzH 0 eps space lass x 0 hx (by omega)
  have e2 := relPermittivityNoLens_get Loss.EzH eps eps space
    ⟨fun _ _ _ => rfl, fun _ _ _ => rfl⟩ lass x 0 hx (by omega)
  rw [idx_zero_right] at e1 e2
  rw [e1, e2, if_pos ⟨h1, h2⟩, sub_zero, div_one]
  intro h
  rw [div_eq_iff (by norm_num : (9 : α) ≠ 0)] at h
  have h8 : eps * (9 - 1) = 0 := by rw [mul_sub, mul_one, ← h, sub_self]
  rcases mul_eq_zero.1 h8 with h0 | h0
  · exact heps h0
  · norm_num at h0

/-- Element 50 of `Ez` at the end of step `t` of a run of `FDTD`. -/
theorem FDTD_Ez_fifty (exp : α → α) (EM : Field α) (n : Nat) (eps : α) (space : Nat)
    (lass : Loss α) (out : List (Line α)) (hs : 50 < space) :
    (FDTD exp EM n eps space lass out).EM.Ez 50
      = EM.Ez 50 + ∑ k in Finset.range n, sourceTerm exp k :=
  timeLoop_Ez_fifty exp n space _ ⟨EM, out⟩ hs

theorem sourceTerm_real (k : Nat) :
    sourceTerm Real.exp k = Real.exp (-(((k : ℝ) + 1 - 40) ^ 2) / 100) := by
  unfold sourceTerm
  congr 1
  push_cast
  ring

/-- Element 50 of `Ez` at the end of step `t` of a run from the zero field with the
real exponential. -/
theorem FDTD_real_Ez_fifty (n : Nat) (eps : ℝ) (space : Nat) (lass : Loss ℝ)
    (out : List (Line ℝ)) (hs : 50 < space) :
    (FDTD Real.exp Field.zero n eps space lass out).EM.Ez 50
      = ∑ k in Finset.range n, Real.exp (-(((k : ℝ) + 1 - 40) ^ 2) / 100) := by
  rw [FDTD_Ez_fifty Real.exp Field.zero n eps space lass out hs]
  have hz : (Field.zero : Field ℝ).Ez 50 = 0 := rfl
  rw [hz, zero_add]
  exact Finset.sum_congr rfl fun k _ => sourceTerm_real k

/-- The border facts at a cell, for a run from the zero field. -/
theorem FDTD_border_cell (exp : α → α) (n : Nat) (eps : α) (space : Nat) (lass : Loss α)
    (out : List (Line α)) (hs : 50 < space) (x y : Nat) (hx : x < space) (hy : y < space) :
    ((x = 0 ∨ x = space - 1 ∨ y = 0 ∨ y = space - 1) → ¬ (x = 50 ∧ y = 0) →
        (FDTD exp Field.zero n eps space lass out).EM.Ez (idx space x y) = 0)
      ∧ (FDTD exp Field.zero n eps space lass out).EM.Hy (idx space (space - 1) y) = 0
      ∧ (FDTD exp Field.zero n eps space lass out).EM.Hx (idx space x (space - 1)) = 0 := by
  obtain ⟨h1, h2, h3⟩ := (FDTD_border exp n eps space lass out hs).1
  exact ⟨fun hb hne => h1 x y hx hy (by omega) hne, h2 (space - 1) y (by omega) hy,
    h3 x (space - 1) hx (by omega)⟩

end RunFacts

/-! ## The embedded program never stores beyond the storage -/

/-- A property kept by the body at every visited cell is kept by the nested
loop. -/
theorem forCells_preserves_mem {σ : Type} (P : σ → Prop) (xs ys : List Nat)
    (body : Nat → Nat → σ → σ)
    (hbody : ∀ dx ∈ xs, ∀ dy ∈ ys, ∀ s, P s → P (body dx dy s)) (s : σ) (hs : P s) :
    P (forCells xs ys body s) := by
  rw [forCells_eq_foldl]
  have aux : ∀ cs : List (Nat × Nat), (∀ c ∈ cs, ∀ s, P s → P (body c.1 c.2 s)) →
      ∀ s, P s → P (cs.foldl (fun s c => body c.1 c.2 s) s) := by
    intro cs
    induction cs with
    | nil => exact fun _ s hs => hs
    | cons c cs ih =>
      intro hcs s hs
      exact ih (fun d hd => hcs d (List.mem_cons_of_mem _ hd)) _
        (hcs c (List.mem_cons_self _ _) s hs)
  exact aux _ (fun c hc => hbody c.1 (List.mem_product.1 hc).1 c.2 (List.mem_product.1 hc).2)
    s hs

theorem idx_lt_storage {space dx dy : Nat} (hs : space ≤ 200) (hx : dx < space)
    (hy : dy < space) : idx space dx dy < storage := by
  have h1 : dy * space ≤ 199 * 200 := Nat.mul_le_mul (by omega) hs
  have h2 : storage = 40000 := rfl
  unfold idx
  omega

theorem update_frame (f : Nat → α) (k n : Nat) (v : α) (hk : k < storage)
    (hn : storage ≤ n) : Function.update f k v n = f n :=
  Function.update_noteq (by omega) _ _

section Storage

variable [DivisionRing α]

theorem relPermittivity_frame (loss eps : α) (space : Nat) (hs : space ≤ 200)
    (lass : Loss α) : LossFrame (relPermittivity loss eps space lass) lass := by
  unfold relPermittivity
  refine forCells_preserves_mem (fun L => LossFrame L lass) _ _ _
    (fun dx hdx dy hdy L hL n hn => ?_) lass (fun _ _ => ⟨rfl, rfl, rfl, rfl, rfl, rfl⟩)
  have hk := idx_lt_storage hs (mem_loopRange.1 hdx).2 (mem_loopRange.1 hdy).2
  obtain ⟨h1, h2, h3, h4, h5, h6⟩ := hL n hn
  unfold coeffCell
  split
  · exact ⟨by rw [← h1]; exact update_frame _ _ _ _ hk hn,
      by rw [← h2]; exact update_frame _ _ _ _ hk hn,
      by rw [← h3]; exact update_frame _ _ _ _ hk hn,
      by rw [← h4]; exact update_frame _ _ _ _ hk hn,
      by rw [← h5]; exact update_frame _ _ _ _ hk hn,
      by rw [← h6]; exact update_frame _ _ _ _ hk hn⟩
  · exact ⟨by rw [← h1]; exact update_frame _ _ _ _ hk hn,
      by rw [← h2]; exact update_frame _ _ _ _ hk hn,
      by rw [← h3]; exact update_frame _ _ _ _ hk hn,
      by rw [← h4]; exact update_frame _ _ _ _ hk hn,
      by rw [← h5]; exact update_frame _ _ _ _ hk hn,
      by rw [← h6]; exact update_frame _ _ _ _ hk hn⟩

theorem hyPass_frame (space : Nat) (hs : space ≤ 200) (lass : Loss α) (EM : Field α) :
    FieldFrame (hyPass space lass EM) EM := by
  unfold hyPass
  refine forCells_preserves_mem (fun F => FieldFrame F EM) _ _ _
    (fun dx hdx dy hdy F hF n hn => ?_) EM (fun _ _ => ⟨rfl, rfl, rfl⟩)
  have h1 := (mem_loopRange.1 hdx).2
  have hk := idx_lt_storage hs (by omega : dx < space) (mem_loopRange.1 hdy).2
  obtain ⟨e1, e2, e3⟩ := hF n hn
  exact ⟨e1, by rw [← e2]; exact update_frame _ _ _ _ hk hn, e3⟩

theorem hxPass_frame (space : Nat) (hs : space ≤ 200) (lass : Loss α) (EM : Field α) :
    FieldFrame (hxPass space lass EM) EM := by
  unfold hxPass
  refine forCells_preserves_mem (fun F => FieldFrame F EM) _ _ _
    (fun dx hdx dy hdy F hF n hn => ?_) EM (fun _ _ => ⟨rfl, rfl, rfl⟩)
  have h1 := (mem_loopRange.1 hdy).2
  have hk := idx_lt_storage hs (mem_loopRange.1 hdx).2 (by omega : dy < space)
  obtain ⟨e1, e2, e3⟩ := hF n hn
  exact ⟨by rw [← e1]; exact update_frame _ _ _ _ hk hn, e2, e3⟩

theorem ezPass_frame (space : Nat) (hs : space ≤ 200) (lass : Loss α) (EM : Field α) :
    FieldFrame (ezPass space lass EM) EM := by
  unfold ezPass
  refine forCells_preserves_mem (fun F => FieldFrame F EM) _ _ _
    (fun dx hdx dy hdy F hF n hn => ?_) EM (fun _ _ => ⟨rfl, rfl, rfl⟩)
  have h1 := (mem_loopRange.1 hdx).2
  have h2 := (mem_loopRange.1 hdy).2
  have hk := idx_lt_storage hs (by omega : dx < space) (by omega : dy < space)
  obtain ⟨e1, e2, e3⟩ := hF n hn
  exact ⟨e1, e2, by rw [← e3]; exact update_frame _ _ _ _ hk hn⟩

theorem stepField_frame (exp : α → α) (space : Nat) (hs : space ≤ 200) (lass : Loss α)
    (t : Nat) (EM : Field α) : FieldFrame (stepField exp space lass t EM) EM := by
  intro n hn
  have hst : storage = 40000 := rfl
  obtain ⟨a1, a2, a3⟩ := hyPass_frame space hs lass EM n hn
  obtain ⟨b1, b2, b3⟩ := hxPass_frame space hs lass (hyPass space lass EM) n hn
  obtain ⟨c1, c2, c3⟩ := ezPass_frame space hs lass
    (patch (hxPass space lass (hyPass space lass EM))) n hn
  have hp : (patch (hxPass space lass (hyPass space lass EM))).Ez n
      = (hxPass space lass (hyPass space lass EM)).Ez n :=
    update_frame _ 0 n _ (by omega) hn
  have hi : (stepField exp space lass t EM).Ez n
      = (ezPass space lass (patch (hxPass space lass (hyPass space lass EM)))).Ez n :=
    update_frame _ 50 n _ (by omega) hn
  refine ⟨?_, ?_, ?_⟩
  · rw [stepField_Hx, b1, a1]
  · rw [stepField_Hy, a2]
  · rw [hi, c3, hp, b3, a3]

theorem FDTD_frame (exp : α → α) (EM : Field α) (final_time : Nat) (eps : α) (space : Nat)
    (hs : space ≤ 200) (lass : Loss α) (out : List (Line α)) :
    FieldFrame (FDTD exp EM final_time eps space lass out).EM EM := by
  unfold FDTD
  induction final_time with
  | zero => exact fun _ _ => ⟨rfl, rfl, rfl⟩
  | succ n ih =>
    intro k hk
    rw [timeLoop_EM_succ]
    obtain ⟨a1, a2, a3⟩ := stepField_frame exp space hs _ n
      (timeLoop exp n space (relPermittivity 0 eps space lass) ⟨EM, out⟩).EM k hk
    obtain ⟨b1, b2, b3⟩ := ih k hk
    exact ⟨a1.trans b1, a2.trans b2, a3.trans b3⟩

end Storage

/-! ## Claims -/

/-- C1: after the coefficient loop of `FDTD` (`loss = 0`, `space = 200`, any `eps`,
any initial contents of `lass`), at every cell `(x, y)` of the grid `EzH(x, y)` is
`eps / 9` when `100 < x < 150` and `eps` otherwise, whatever `y` is; `EzE`, `HyH`
and `HxH` are `1` and `HyE`, `HxE` are `1 / eps`, inside and outside the band. -/
theorem C1_coefficients [DivisionRing α] (eps : α) (lass : Loss α) (x y : Nat)
    (hx : x < 200) (hy : y < 200) :
    (relPermittivity 0 eps 200 lass).EzH (idx 200 x y)
        = (if 100 < x ∧ x < 150 then eps / 9 else eps)
      ∧ (relPermittivity 0 eps 200 lass).EzE (idx 200 x y) = 1
      ∧ (relPermittivity 0 eps 200 lass).HyH (idx 200 x y) = 1
      ∧ (relPermittivity 0 eps 200 lass).HxH (idx 200 x y) = 1
      ∧ (relPermittivity 0 eps 200 lass).HyE (idx 200 x y) = 1 / eps
      ∧ (relPermittivity 0 eps 200 lass).HxE (idx 200 x y) = 1 / eps := by
  rw [relPermittivity_EzH 0 eps 200 lass x y hx hy, relPermittivity_EzE 0 eps 200 lass x y hx hy,
    relPermittivity_HyH 0 eps 200 lass x y hx hy, relPermittivity_HxH 0 eps 200 lass x y hx hy,
    relPermittivity_HyE 0 eps 200 lass x y hx hy, relPermittivity_HxE 0 eps 200 lass x y hx hy]
  simp

/-- Witness of C1 over the rationals with `eps = 377`: the band-edge cell
`(100, 7)` holds `377`, the cell `(101, 7)` inside the band holds `377 / 9`. -/
theorem C1_coefficients_witness :
    (100 < 200 ∧ 101 < 200 ∧ 7 < 200)
      ∧ (relPermittivity 0 (377 : ℚ) 200 Loss.zero).EzH (idx 200 100 7) = 377
      ∧ (relPermittivity 0 (377 : ℚ) 200 Loss.zero).EzH (idx 200 101 7) = 377 / 9 :=
  ⟨by omega,
    by rw [(C1_coefficients (377 : ℚ) Loss.zero 100 7 (by omega) (by omega)).1]; simp,
    by rw [(C1_coefficients (377 : ℚ) Loss.zero 101 7 (by omega) (by omega)).1]; simp⟩

/-- C2: for every field and coefficient grid, at every cell `(x, y)` of the grid
the in-place `Hy` pass followed by the in-place `Hx` pass gives the simultaneous
update computed from the field before the passes: the stated formula for `Hy`
when `x <= space - 2` and for `Hx` when `y <= space - 2`; `Hy(space-1, y)` and
`Hx(x, space-1)` keep their values; and `Ez` is changed by neither pass. -/
theorem C2_magnetic_passes [DivisionRing α] (space : Nat) (lass : Loss α) (EM : Field α)
    (x y : Nat) (hx : x < space) (hy : y < space) :
    (x + 1 < space →
        (hxPass space lass (hyPass space lass EM)).Hy (idx space x y)
          = lass.HyH (idx space x y) * EM.Hy (idx space x y)
            + lass.HyE (idx space x y)
              * (EM.Ez (idx space (x + 1) y) - EM.Ez (idx space x y)))
      ∧ (y + 1 < space →
        (hxPass space lass (hyPass space lass EM)).Hx (idx space x y)
          = lass.HxH (idx space x y) * EM.Hx (idx space x y)
            + lass.HxE (idx space x y)
              * (EM.Ez (idx space x (y + 1)) - EM.Ez (idx space x y)))
      ∧ (x + 1 = space →
        (hxPass space lass (hyPass space lass EM)).Hy (idx space x y)
          = EM.Hy (idx space x y))
      ∧ (y + 1 = space →
        (hxPass space lass (hyPass space lass EM)).Hx (idx space x y)
          = EM.Hx (idx space x y))
      ∧ (hyPass space lass EM).Ez = EM.Ez
      ∧ (hxPass space lass (hyPass space lass EM)).Ez = EM.Ez := by
  refine ⟨fun h => ?_, fun h => ?_, fun h => ?_, fun h => ?_, hyPass_Ez _ _ _, ?_⟩
  · rw [hxPass_Hy, hyPass_Hy_visited space lass EM x y h hy]
  · rw [hxPass_Hx_visited space lass _ x y hx h, hyPass_Hx, hyPass_Ez]
  · rw [hxPass_Hy]
    refine hyPass_Hy_other space lass EM _ fun dx dy hdx _ hkey => ?_
    have := (idx_inj (by omega) hx hkey).1
    omega
  · rw [hxPass_Hx_other space lass _ _ fun dx dy hdx hdy hkey => ?_, hyPass_Hx]
    have := (idx_inj hdx hx hkey).2
    omega
  · rw [hxPass_Ez, hyPass_Ez]

/-- Witness of C2 on a 3 x 3 grid at the cell `(0, 0)`, which both passes visit:
`Hy` becomes `7 * 1 + 5 * (1 - 0) = 12` and `Hx` becomes `13 * 0 + 11 * (9 - 0) = 99`. -/
theorem C2_magnetic_passes_witness :
    (0 < 3 ∧ 0 + 1 < 3)
      ∧ (hxPass 3 demoLoss (hyPass 3 demoLoss demoField)).Hy (idx 3 0 0) = 12
      ∧ (hxPass 3 demoLoss (hyPass 3 demoLoss demoField)).Hx (idx 3 0 0) = 99 :=
  ⟨by omega,
    by rw [(C2_magnetic_passes 3 demoLoss demoField 0 0 (by omega) (by omega)).1 (by omega)]
       norm_num [demoLoss, demoField, idx],
    by rw [(C2_magnetic_passes 3 demoLoss demoField 0 0 (by omega) (by omega)).2.1 (by omega)]
       norm_num [demoLoss, demoField, idx]⟩

/-- C3: for every field, the in-place `Ez` loop is the simultaneous update: at an
interior cell `1 <= x, y <= space - 2` the new `Ez(x, y)` is
`EzE(x,y) * Ez(x,y) + EzH[x] * (Hy(x,y) - Hy(x-1,y) - Hx(x,y) - Hx(x,y-1))` with
all values on the right taken before the loop; a cell with `x` or `y` in
`{0, space - 1}` keeps its value; `Hx` and `Hy` are not changed by the loop. -/
theorem C3_electric_pass [DivisionRing α] (space : Nat) (lass : Loss α) (EM : Field α)
    (x y : Nat) (hx : x < space) (_hy : y < space) :
    (1 ≤ x → x + 1 < space → 1 ≤ y → y + 1 < space →
        (ezPass space lass EM).Ez (idx space x y)
          = lass.EzE (idx space x y) * EM.Ez (idx space x y)
            + lass.EzH x * (EM.Hy (idx space x y) - EM.Hy (idx space (x - 1) y)
                - EM.Hx (idx space x y) - EM.Hx (idx space x (y - 1))))
      ∧ (x = 0 ∨ x + 1 = space ∨ y = 0 ∨ y + 1 = space →
        (ezPass space lass EM).Ez (idx space x y) = EM.Ez (idx space x y))
      ∧ (ezPass space lass EM).Hx = EM.Hx
      ∧ (ezPass space lass EM).Hy = EM.Hy := by
  refine ⟨fun h1 h2 h3 h4 => ezPass_Ez_visited space lass EM x y h1 h2 h3 h4, fun h => ?_,
    ezPass_Hx _ _ _, ezPass_Hy _ _ _⟩
  refine ezPass_Ez_other space lass EM _ fun dx dy h1 h2 h3 h4 hkey => ?_
  have := idx_inj (by omega) hx hkey
  omega

/-- Witness of C3 on a 3 x 3 grid: the only interior cell `(1, 1)` (linear index 4)
becomes `3 * 16 + 2 * (9 - 7 - 4 - 1) = 42`, the border cell `(0, 1)` keeps `9`. -/
theorem C3_electric_pass_witness :
    (1 < 3 ∧ 1 + 1 < 3 ∧ 0 < 3)
      ∧ (ezPass 3 demoLoss demoField).Ez (idx 3 1 1) = 42
      ∧ (ezPass 3 demoLoss demoField).Ez (idx 3 0 1) = 9 :=
  ⟨by omega,
    by rw [(C3_electric_pass 3 demoLoss demoField 1 1 (by omega) (by omega)).1
         (by omega) (by omega) (by omega) (by omega)]
       norm_num [demoLoss, demoField, idx],
    by rw [(C3_electric_pass 3 demoLoss demoField 0 1 (by omega) (by omega)).2.1
         (Or.inl rfl)]
       norm_num [demoField, idx]⟩

/-- C5: the records of a sampled frame are, in loop order, one for each `(x, y)`
with `x` and `y` multiples of 5 below `space`, so `ceil(space/5) * ceil(space/5)`
of them (1600 for `space = 200`); a run with `final_time = 100` samples exactly at
the steps 0 and 50: its output is the frame of step 0 followed by the frame of
step 50, 3200 records in total for `space = 200`. -/
theorem C5_sampling [DivisionRing α] (exp : α → α) (EM : Field α) (eps : α) (space : Nat)
    (lass : Loss α) (t : Nat) (F : Field α) :
    recordKeys (sample space t F []) = frameKeys space t
      ∧ (frameKeys space t).length = ⌈(space : ℚ) / 5⌉₊ * ⌈(space : ℚ) / 5⌉₊
      ∧ (frameKeys space t).Nodup
      ∧ (∀ k, k ∈ frameKeys space t
          ↔ k.1 = t ∧ (k.2.1 < space ∧ 5 ∣ k.2.1) ∧ (k.2.2 < space ∧ 5 ∣ k.2.2))
      ∧ (frameKeys 200 t).length = 1600
      ∧ sampledSteps 100 = [0, 50]
      ∧ (FDTD exp EM 100 eps space lass []).output
          = sample space 0 (FDTD exp EM 1 eps space lass []).EM []
            ++ sample space 50 (FDTD exp EM 51 eps space lass []).EM []
      ∧ recordKeys (FDTD exp EM 100 eps space lass []).output
          = frameKeys space 0 ++ frameKeys space 50
      ∧ (recordKeys (FDTD exp EM 100 eps 200 lass []).output).length = 3200 := by
  have hsteps : sampledSteps 100 = [0, 50] := by decide
  refine ⟨recordKeys_sample space t F, ?_, nodup_frameKeys space t, fun k => mem_frameKeys,
    ?_, hsteps, ?_, ?_, ?_⟩
  · rw [length_frameKeys, ceil_div_five]
  · rw [length_frameKeys]
  · rw [FDTD_output, hsteps, sample_eq, sample_eq]
    unfold FDTD
    rw [frame_congr space 0 _ _ (congrArg Field.Hx (timeLoop_EM_succ exp 0 space _ _)),
      frame_congr space 50 _ _ (congrArg Field.Hx (timeLoop_EM_succ exp 50 space _ _)),
      frame_congr space 0 _ _ (stepField_Hx exp space _ 0 _),
      frame_congr space 50 _ _ (stepField_Hx exp space _ 50 _)]
    simp
  · rw [FDTD_recordKeys, hsteps]
    simp
  · rw [FDTD_recordKeys, hsteps]
    simp [length_frameKeys]

/-- C6: the output of `FDTD` is, for each sampled step `t` (the `t < final_time`
with `t % 50 = 0`, in increasing order), the records `(t, x, y, Hx(x, y))` of the
frame, `x` outer and `y` inner, with `Hx` the field left by the `Hx` pass of step
`t`, followed by exactly two bare newlines; the `(t, x, y)` columns of the
records are strictly increasing in the lexicographic order. -/
theorem C6_output_order [DivisionRing α] (exp : α → α) (EM : Field α) (final_time : Nat)
    (eps : α) (space : Nat) (lass : Loss α) :
    (FDTD exp EM final_time eps space lass []).output
        = (sampledSteps final_time).flatMap (fun t =>
            frame space t
                (hxPass space (relPermittivity 0 eps space lass)
                  (hyPass space (relPermittivity 0 eps space lass)
                    (FDTD exp EM t eps space lass []).EM))
              ++ [Line.blank, Line.blank])
      ∧ (∀ t, t ∈ sampledSteps final_time ↔ t < final_time ∧ t % 50 = 0)
      ∧ (sampledSteps final_time).Pairwise (· < ·)
      ∧ (recordKeys (FDTD exp EM final_time eps space lass []).output).Pairwise keyLt := by
  refine ⟨FDTD_output exp EM final_time eps space lass, fun t => mem_sampledSteps,
    pairwise_sampledSteps final_time, ?_⟩
  rw [FDTD_recordKeys]
  exact pairwise_keyLt _ _ _ (pairwise_sampledSteps final_time) (pairwise_strideLoop space)
    (pairwise_strideLoop space)

/-- C7: in every step `t` of a run with `space = 200`, the element of `Ez` at linear
index 0 at the end of the iteration is the value the element at linear index 1
held just before the patch `Ez[0] = Ez[1]` of that step (which is also its value at
the start of the step); the `Ez` loop and the source injection that follow the
patch change neither index 0 nor index 1. -/
theorem C7_boundary_patch [DivisionRing α] (exp : α → α) (EM : Field α) (eps : α)
    (lass : Loss α) (out : List (Line α)) (t : Nat) (F : Field α) :
    (FDTD exp EM (t + 1) eps 200 lass out).EM.Ez 0
        = (hxPass 200 (relPermittivity 0 eps 200 lass)
            (hyPass 200 (relPermittivity 0 eps 200 lass)
              (FDTD exp EM t eps 200 lass out).EM)).Ez 1
      ∧ (FDTD exp EM (t + 1) eps 200 lass out).EM.Ez 0
        = (FDTD exp EM t eps 200 lass out).EM.Ez 1
      ∧ (inject exp t (ezPass 200 (relPermittivity 0 eps 200 lass) F)).Ez 0 = F.Ez 0
      ∧ (inject exp t (ezPass 200 (relPermittivity 0 eps 200 lass) F)).Ez 1 = F.Ez 1 :=
  FDTD_patch_row exp EM eps 200 lass out t F

/-- C8 as stated fails: with `loss = 0` (different from `-1` and `1`) and `eps = 0`
the division `1.0 / eps` of the coefficient loop has the divisor `0`. -/
theorem C8_divisors_counterexample :
    (0 : ℚ) ≠ -1 ∧ (0 : ℚ) ≠ 1 ∧ (0 : ℚ) ∈ coeffDivisors (0 : ℚ) (0 : ℚ) 0 := by
  refine ⟨by norm_num, by norm_num, ?_⟩
  simp [coeffDivisors]

/-- C8, amended: for every `eps` different from `0` and every `loss` different from
`-1` and `1`, no division performed while deriving the six coefficients (by `9`,
by `1 - loss`, by `1 + loss`, by `eps`) has a zero divisor, at any column. -/
theorem C8_divisors [DivisionRing α] [CharZero α] (eps loss : α) (dx : Nat)
    (heps : eps ≠ 0) (hneg : loss ≠ -1) (hpos : loss ≠ 1) :
    ∀ d ∈ coeffDivisors loss eps dx, d ≠ 0 := by
  have h9 : (9 : α) ≠ 0 := by norm_num
  have hsub : 1 - loss ≠ 0 := sub_ne_zero.2 (Ne.symm hpos)
  have hadd : 1 + loss ≠ 0 := fun h => hneg (by rw [add_comm] at h; exact eq_neg_of_add_eq_zero_left h)
  intro d hd
  unfold coeffDivisors at hd
  split at hd
  · simp only [List.mem_cons, List.mem_singleton] at hd
    simp only [List.not_mem_nil, or_false] at hd
    rcases hd with h | h | h | h | h | h | h | h | h <;> rw [h] <;> assumption
  · simp only [List.mem_cons, List.mem_singleton] at hd
    simp only [List.not_mem_nil, or_false] at hd
    rcases hd with h | h <;> rw [h] <;> assumption

/-- Witness of the amended C8 in the lens band with the values of the program,
`eps = 377` and `loss = 0`: the divisor `1 - loss` of line 91 is not zero. -/
theorem C8_divisors_witness :
    ((377 : ℚ) ≠ 0 ∧ (0 : ℚ) ≠ -1 ∧ (0 : ℚ) ≠ 1)
      ∧ (1 - 0 : ℚ) ∈ coeffDivisors (0 : ℚ) (377 : ℚ) 120 ∧ (1 - 0 : ℚ) ≠ 0 :=
  ⟨by norm_num, by simp [coeffDivisors],
    C8_divisors (377 : ℚ) 0 120 (by norm_num) (by norm_num) (by norm_num) (1 - 0)
      (by simp [coeffDivisors])⟩

/-- C9 as stated fails: the first-step value `exp(-1521/100)` of `Ez[50]` does not
lie in the interval `[2.035e-7, 2.045e-7]`. -/
theorem C9_source_value_counterexample :
    ¬ ((2035 : ℝ) / 10 ^ 10 ≤ sourceTerm Real.exp 0
        ∧ sourceTerm Real.exp 0 ≤ 2045 / 10 ^ 10) := by
  rintro ⟨-, h⟩
  have h2 := sourceTerm_zero_bounds.1.trans h
  norm_num at h2

/-- C9, amended: the first-step value of `Ez[50]`, `exp(-1521/100)`, is
approximately `2.48e-7`: as a real number it lies in `[2.475e-7, 2.485e-7]`. -/
theorem C9_source_value :
    sourceTerm Real.exp 0 = Real.exp (-1521 / 100)
      ∧ (2475 : ℝ) / 10 ^ 10 ≤ sourceTerm Real.exp 0
      ∧ sourceTerm Real.exp 0 ≤ 2485 / 10 ^ 10 := by
  refine ⟨?_, sourceTerm_zero_bounds.1, sourceTerm_zero_bounds.2⟩
  unfold sourceTerm
  norm_num

/-- C10: `lass.EzH[x]` is the element of cell `(x, 0)`; after the coefficient loop
it equals `EzH(x, y)` for every cell of the grid; and `FDTD` with `lass.EzH[dx]`
replaced by `lass.EzH(dx, dy)` in the `Ez` update computes the same final field
and writes the same output, for every input. -/
theorem C10_EzH_column [DivisionRing α] (exp : α → α) (EM : Field α) (final_time : Nat)
    (eps : α) (space : Nat) (lass : Loss α) (out : List (Line α)) :
    (∀ x, idx space x 0 = x)
      ∧ (∀ x y, x < space → y < space →
          (relPermittivity 0 eps space lass).EzH x
            = (relPermittivity 0 eps space lass).EzH (idx space x y))
      ∧ FDTD2D exp EM final_time eps space lass out
          = FDTD exp EM final_time eps space lass out :=
  ⟨fun x => by simp [idx],
    fun x y hx hy => relPermittivity_EzH_column 0 eps space lass x y hx hy,
    FDTD2D_eq exp EM final_time eps space lass out⟩

/-- Witness of C10 over the rationals on the grid of the program: the element
`EzH[120]` equals `EzH(120, 7)` after the coefficient loop with `eps = 377`. -/
theorem C10_EzH_column_witness :
    (120 < 200 ∧ 7 < 200)
      ∧ (relPermittivity 0 (377 : ℚ) 200 Loss.zero).EzH 120
          = (relPermittivity 0 (377 : ℚ) 200 Loss.zero).EzH (idx 200 120 7) :=
  ⟨by omega,
    by rw [(C10_EzH_column (fun v => v) demoField 100 (377 : ℚ) 200 Loss.zero []).2.1 120 7
      (by omega) (by omega)]⟩

/-- C12: `FDTD` receives `EM` and `lass` by value: after the call the caller's `EM`
and `lass` are what they were (in `main`, zero at every element), although the
copies the body worked on are not zero any more; the caller sees only the lines
appended to the output. -/
theorem C12_by_value [DivisionRing α] (exp : α → α) (final_time : Nat) (eps : α)
    (space : Nat) (c : Caller α) :
    (callFDTD exp final_time eps space c).EM = c.EM
      ∧ (callFDTD exp final_time eps space c).lass = c.lass
      ∧ (callFDTD exp final_time eps space c).output
          = c.output ++ (sampledSteps final_time).flatMap (fun t =>
              frame space t
                  (hxPass space (relPermittivity 0 eps space c.lass)
                    (hyPass space (relPermittivity 0 eps space c.lass)
                      (FDTD exp c.EM t eps space c.lass c.output).EM))
                ++ [Line.blank, Line.blank])
      ∧ (main exp).EM = Field.zero
      ∧ (main exp).lass = Loss.zero
      ∧ (main exp).output = (FDTD exp Field.zero 100 377 200 Loss.zero []).output
      ∧ (FDTDBody Real.exp 100 377 200 ⟨Field.zero, Loss.zero, []⟩).EM ≠ Field.zero
      ∧ (FDTDBody Real.exp 100 377 200 ⟨Field.zero, Loss.zero, []⟩).lass ≠ Loss.zero :=
  ⟨rfl, rfl, timeLoop_output exp final_time space _ ⟨c.EM, c.output⟩, rfl, rfl, rfl,
    FDTDBody_EM_ne_zero 100 377 200 (by omega) (by omega),
    FDTDBody_lass_ne_zero Real.exp 100 377 200 (by omega)⟩

/-- C13: for the reference run (`space = 200`, `final_time = 100`, `loss = 0`, zero
initial field, `eps` not zero) the output of `FDTD` is the output of the program
with the lens branch removed, although the two programs use different `EzH[x]`
in the lens columns: up to and including step 50 the bracket multiplied by
`EzH[x]` is zero at every cell `(x, y)` of the columns `100 < x < 150` with
`y >= 1`, where the bracket is defined. -/
theorem C13_lens_invisible [DivisionRing α] [CharZero α] (exp : α → α) (eps : α)
    (heps : eps ≠ 0) (lass : Loss α) :
    (FDTD exp Field.zero 100 eps 200 lass []).output
        = (FDTDNoLens exp Field.zero 100 eps 200 lass []).output
      ∧ (∀ t x y, t ≤ 50 → 100 < x → x < 150 → 1 ≤ y → y < 200 →
          ezBracket 200
            (patch (hxPass 200 (relPermittivity 0 eps 200 lass)
              (hyPass 200 (relPermittivity 0 eps 200 lass)
                (FDTD exp Field.zero t eps 200 lass []).EM))) x y = 0)
      ∧ (∀ x, 100 < x → x < 150 →
          (relPermittivity 0 eps 200 lass).EzH x
            ≠ (relPermittivityNoLens eps 200 lass).EzH x) :=
  ⟨FDTD_output_noLens exp 100 eps 200 lass (by omega) (by omega),
    fun t x y ht h1 h2 h3 h4 =>
      FDTD_bracket_zero exp eps 200 lass (by omega) t x y ht h1 h3 (by omega) h4,
    fun x h1 h2 => EzH_lens_ne eps heps 200 lass x (by omega) h1 h2⟩

/-- Witness of C13 over the rationals with `eps = 377` and the zero coefficient
grid of `main`. -/
theorem C13_lens_invisible_witness :
    (377 : ℚ) ≠ 0
      ∧ (FDTD (fun v => v) Field.zero 100 (377 : ℚ) 200 Loss.zero []).output
          = (FDTDNoLens (fun v => v) Field.zero 100 (377 : ℚ) 200 Loss.zero []).output :=
  ⟨by norm_num,
    by rw [(C13_lens_invisible (fun v => v) (377 : ℚ) (by norm_num) Loss.zero).1]⟩

/-- C15: for every `final_time` and every `space <= 200`, every index used by
`FDTD` to read or write a vector (coefficient loop, the three passes with their
neighbour reads and `EzH[dx]`, the literal indices 0, 1 and 50, the sampling
reads) lies in `[0, 40000)`, the size of every vector; accordingly the embedded
program leaves every element beyond the storage as it was, in the three field
vectors and in the six coefficient vectors. -/
theorem C15_index_safety [DivisionRing α] (exp : α → α) (EM : Field α) (eps : α)
    (lass : Loss α) (out : List (Line α)) (final_time space : Nat) (hs : space ≤ 200)
    (i : Int) (h : i ∈ FDTDIdx final_time space) :
    (0 ≤ i ∧ i < 40000) ∧ storage = 40000
      ∧ FieldFrame (FDTD exp EM final_time eps space lass out).EM EM
      ∧ LossFrame (relPermittivity 0 eps space lass) lass := by
  have hb := FDTDIdx_bound final_time space hs i h
  have hst : ((storage : Nat) : Int) = 40000 := by norm_num [storage]
  rw [hst] at hb
  exact ⟨hb, rfl, FDTD_frame exp EM final_time eps space hs lass out,
    relPermittivity_frame 0 eps space hs lass⟩

/-- Witness of C15 on the reference run: the coefficient loop uses the index
`199 + 199 * 200 = 39999`, the last element of the vectors. -/
theorem C15_index_safety_witness :
    (200 ≤ 200 ∧ (39999 : Int) ∈ FDTDIdx 100 200)
      ∧ (0 ≤ (39999 : Int) ∧ (39999 : Int) < 40000) := by
  have hmem : (39999 : Int) ∈ FDTDIdx 100 200 := by
    unfold FDTDIdx
    refine List.mem_append_left _ (mem_cellIdx.2 ⟨199, mem_loopRange.2 (by omega), 199,
      mem_loopRange.2 (by omega), ?_⟩)
    norm_num [coeffCellIdx, idxInt]
  exact ⟨⟨by omega, hmem⟩,
    (C15_index_safety (fun v => v) demoField (377 : ℚ) demoLoss [] 100 200 (by omega)
      39999 hmem).1⟩

/-- C16: element 50 of `Ez` is never fed back: at the end of step `t` of a run with
`space = 200` it is its initial value plus the source terms of the steps `0..t`;
from the zero field with the real exponential it is the sum over `k = 0..t` of
`exp(-((k + 1 - 40)^2) / 100)`. -/
theorem C16_source_cell [DivisionRing α] (exp : α → α) (EM : Field α) (eps : α)
    (lass : Loss α) (out : List (Line α)) (t : Nat) (epsR : ℝ) (lassR : Loss ℝ)
    (outR : List (Line ℝ)) :
    (FDTD exp EM (t + 1) eps 200 lass out).EM.Ez 50
        = EM.Ez 50 + ∑ k in Finset.range (t + 1), sourceTerm exp k
      ∧ (FDTD Real.exp Field.zero (t + 1) epsR 200 lassR outR).EM.Ez 50
        = ∑ k in Finset.range (t + 1), Real.exp (-(((k : ℝ) + 1 - 40) ^ 2) / 100) :=
  ⟨FDTD_Ez_fifty exp EM (t + 1) eps 200 lass out (by omega),
    FDTD_real_Ez_fifty (t + 1) epsR 200 lassR outR (by omega)⟩

/-- C17: in a run with `space = 200` from the zero field, after any number `n` of
completed iterations `Ez` is `0` at every border cell other than `(50, 0)`, so
`Ez[0]` and `Ez[1]` are `0` and the patch of the next step changes nothing;
`Hy(199, y)` and `Hx(x, 199)` are `0`. -/
theorem C17_border [DivisionRing α] (exp : α → α) (eps : α) (lass : Loss α)
    (out : List (Line α)) (n x y : Nat) (hx : x < 200) (hy : y < 200) :
    ((x = 0 ∨ x = 200 - 1 ∨ y = 0 ∨ y = 200 - 1) → ¬ (x = 50 ∧ y = 0) →
        (FDTD exp Field.zero n eps 200 lass out).EM.Ez (idx 200 x y) = 0)
      ∧ (FDTD exp Field.zero n eps 200 lass out).EM.Hy (idx 200 (200 - 1) y) = 0
      ∧ (FDTD exp Field.zero n eps 200 lass out).EM.Hx (idx 200 x (200 - 1)) = 0
      ∧ (FDTD exp Field.zero n eps 200 lass out).EM.Ez 0 = 0
      ∧ (FDTD exp Field.zero n eps 200 lass out).EM.Ez 1 = 0
      ∧ patch (hxPass 200 (relPermittivity 0 eps 200 lass)
            (hyPass 200 (relPermittivity 0 eps 200 lass)
              (FDTD exp Field.zero n eps 200 lass out).EM))
          = hxPass 200 (relPermittivity 0 eps 200 lass)
            (hyPass 200 (relPermittivity 0 eps 200 lass)
              (FDTD exp Field.zero n eps 200 lass out).EM) :=
  ⟨(FDTD_border_cell exp n eps 200 lass out (by omega) x y hx hy).1,
    (FDTD_border_cell exp n eps 200 lass out (by omega) x y hx hy).2.1,
    (FDTD_border_cell exp n eps 200 lass out (by omega) x y hx hy).2.2,
    (FDTD_border exp n eps 200 lass out (by omega)).2.1,
    (FDTD_border exp n eps 200 lass out (by omega)).2.2.1,
    (FDTD_border exp n eps 200 lass out (by omega)).2.2.2⟩

/-- Witness of C17 over the rationals: after 60 iterations the border cell
`(51, 0)`, next to the source cell, still has `Ez = 0`. -/
theorem C17_border_witness :
    (51 < 200 ∧ 0 < 200)
      ∧ (FDTD (fun v => v) Field.zero 60 (377 : ℚ) 200 Loss.zero []).EM.Ez (idx 200 51 0) = 0 := by
  have h := (C17_border (fun v => v) (377 : ℚ) Loss.zero [] 60 51 0 (by omega) (by omega)).1
    (Or.inr (Or.inr (Or.inl rfl))) (by omega)
  refine ⟨by omega, Eq.trans ?_ h⟩
  apply congrFun
  rfl

/-- C18: the `Hy` pass and the `Hx` pass commute: for every field, coefficient grid
and `space`, the `Hx` pass followed by the `Hy` pass gives the same `Hx`, `Hy` and
`Ez` as the `Hy` pass followed by the `Hx` pass. -/
theorem C18_passes_commute [DivisionRing α] (space : Nat) (lass : Loss α) (EM : Field α) :
    hyPass space lass (hxPass space lass EM) = hxPass space lass (hyPass space lass EM) :=
  (hxPass_hyPass_comm space lass EM).symm

end InvLens
